import Mathlib

/-!
# ConnectionPoolManagerInitializer

A shallow embedding of `connection_pool_manager_initializer.cpp` and a
verification of its completion protocol.

The object's fields are a record; everything outside the object that the
protocol talks about (the managers it allocates, the connectors it starts,
the callback invocations, the references held by the caller) is kept in a
`World` record around it.  `handle_connect` is split at the point where the
source releases the lock, so that handlers of different connectors can be
interleaved between the locked block and the `fetch_sub`; the loop of
`initialize` is split into its iterations, so that a connector can resolve
before `initialize` returns.

The file has the data model and the methods first, then the runs (sequences of
events after the first lines of `initialize`), the invariant of a run with its
proof, and at the end the properties of the completion protocol.

`remaining_` is a `size_t`, taken as 64 bits wide; the properties are stated for
address lists with fewer than `2 ^ 64` entries.
-/

namespace cass

/-! ## Data model -/

/-- Host endpoint, compared by value. -/
abbrev Address := Nat

/-- Number of values of `size_t`, the type of `remaining_`. -/
def SIZE_MOD : Nat := 2 ^ 64

/-- Modelled from the spec: `ConnectionPoolManagerSettings` is declared outside the
sources at hand; the initializer only stores and forwards it, so a tag stands for its
contents. -/
structure ConnectionPoolManagerSettings where
  tag : Nat
  deriving DecidableEq, Repr

/-- Modelled from the spec: the pool a connector established; it remembers the
connector that released it and the address it serves. -/
structure Pool where
  connector : Nat
  address : Address
  deriving DecidableEq, Repr

/-- Outcome state of a connector. -/
inductive Outcome
  | pending
  | ok
  | failed
  deriving DecidableEq, Repr

/-- Modelled from the spec: `ConnectionPoolConnector` is declared outside the sources at
hand.  `id` is the identity of the object (its creation index); `manager`, `address`
and `data` are the constructor arguments of lines 53-56. -/
structure ConnectionPoolConnector where
  id : Nat
  manager : Option Nat
  address : Address
  data : Nat
  outcome : Outcome
  deriving DecidableEq, Repr

/-- Modelled from the spec: `ConnectionPoolManager` is declared outside the sources at
hand.  The record keeps the constructor arguments of lines 45-50 and logs the calls the
manager receives: `added` lists the pools passed to `add_pool`, in call order, and
`close_calls` counts the calls of `close`. -/
structure ConnectionPoolManager where
  event_loop : Nat
  protocol_version : Int
  keyspace : String
  listener : Option Nat
  metrics : Option Nat
  settings : ConnectionPoolManagerSettings
  added : List Pool
  close_calls : Nat
  deriving DecidableEq, Repr

/-- Fields of `ConnectionPoolManagerInitializer`.  `addr` is the address of the object
(the value of the `this` pointer), `ref_count` the counter of its `RefCounted` base, and
`manager_` the index of the manager in the heap of the `World`, `none` for a null
pointer. -/
structure ConnectionPoolManagerInitializer where
  addr : Nat
  ref_count : Int
  data_ : Nat
  remaining_ : Nat
  event_loop_ : Nat
  protocol_version_ : Int
  keyspace_ : String
  listener_ : Option Nat
  metrics_ : Option Nat
  settings_ : ConnectionPoolManagerSettings
  manager_ : Option Nat
  failures_ : List ConnectionPoolConnector
  deriving DecidableEq, Repr

/-- One invocation of `callback_`: the connector whose handler made the call, and the
initializer and the managers as the callback finds them. -/
structure Invocation where
  handler : Nat
  self : ConnectionPoolManagerInitializer
  heap : List ConnectionPoolManager
  deriving DecidableEq, Repr

/-- Modelled from the spec: the callback type and `release_manager` are declared outside
the sources at hand.  A callback inspects the initializer and its manager and answers
whether it takes over the manager (`true`: it called `release_manager`, which leaves
`manager_` null).  Whatever else a callback does is outside the model. -/
abbrev Callback := ConnectionPoolManagerInitializer → List ConnectionPoolManager → Bool

/-- The initializer together with everything around it.
* `destroyed`: the object has been deallocated by a `dec_ref`;
* `heap`: the managers allocated so far, a pointer being an index;
* `todo`: the addresses the loop of `initialize` has not reached yet;
* `connectors`: the connectors on which `connect()` was called, in creation order;
* `merged`: the resolved connectors whose handler has run the locked block, in order;
* `counted`: for each handler that has run `fetch_sub`, its connector and the value
  `fetch_sub` returned, in order;
* `calls`: the invocations of `callback_`, in order;
* `caller_refs`: the references to the initializer held by the caller. -/
structure World where
  self : ConnectionPoolManagerInitializer
  destroyed : Bool
  heap : List ConnectionPoolManager
  todo : List Address
  connectors : List ConnectionPoolConnector
  merged : List ConnectionPoolConnector
  counted : List (Nat × Nat)
  calls : List Invocation
  caller_refs : Nat
  deriving DecidableEq, Repr

/-! ## External collaborators -/

/-- Modelled from the spec: `is_ok()` of the connector. -/
def ConnectionPoolConnector.is_ok (c : ConnectionPoolConnector) : Bool :=
  c.outcome == Outcome.ok

/-- Modelled from the spec: `release_pool()` hands out the pool the connector
established for its address. -/
def ConnectionPoolConnector.release_pool (c : ConnectionPoolConnector) : Pool :=
  { connector := c.id, address := c.address }

/-- Modelled from the spec: `add_pool` of the manager, logged. -/
def ConnectionPoolManager.add_pool (m : ConnectionPoolManager) (p : Pool) :
    ConnectionPoolManager :=
  { m with added := m.added ++ [p] }

/-- Modelled from the spec: `close` of the manager, logged. -/
def ConnectionPoolManager.close (m : ConnectionPoolManager) : ConnectionPoolManager :=
  { m with close_calls := m.close_calls + 1 }

/-- Whether the manager has been closed. -/
def ConnectionPoolManager.closed (m : ConnectionPoolManager) : Bool :=
  decide (0 < m.close_calls)

/-- Call a method on the manager behind pointer `p`.  A `manager_` that is not null is
a counted reference and always points into the heap; `none` is for an index that does
not. -/
def heap_call (heap : List ConnectionPoolManager) (p : Nat)
    (f : ConnectionPoolManager → ConnectionPoolManager) :
    Option (List ConnectionPoolManager) :=
  match heap[p]? with
  | none => none
  | some m => some (heap.set p (f m))

/-- Modelled from the spec: `inc_ref()` of the `RefCounted` base. -/
def inc_ref (w : World) : World :=
  { w with self := { w.self with ref_count := w.self.ref_count + 1 } }

/-- Modelled from the spec: `dec_ref()` of the `RefCounted` base; the object is
deallocated when the last reference goes. -/
def dec_ref (w : World) : World :=
  { w with
    self := { w.self with ref_count := w.self.ref_count - 1 }
    destroyed := w.destroyed || decide (w.self.ref_count - 1 = 0) }

/-! ## The initializer -/

/-- The constructor, lines 25-36: no keyspace, null listener and metrics, default
settings, nothing remaining, no manager, no failures. -/
def construct (addr event_loop : Nat) (protocol_version : Int) (data : Nat)
    (default_settings : ConnectionPoolManagerSettings) : ConnectionPoolManagerInitializer :=
  { addr := addr
    ref_count := 0
    data_ := data
    remaining_ := 0
    event_loop_ := event_loop
    protocol_version_ := protocol_version
    keyspace_ := ""
    listener_ := none
    metrics_ := none
    settings_ := default_settings
    manager_ := none
    failures_ := [] }

/-- The method `with_keyspace`, lines 61-64: the returned pointer and the object after
the call. -/
def with_keyspace (self : ConnectionPoolManagerInitializer) (keyspace : String) :
    Nat × ConnectionPoolManagerInitializer :=
  (self.addr, { self with keyspace_ := keyspace })

/-- The method `with_listener`, lines 66-69. -/
def with_listener (self : ConnectionPoolManagerInitializer) (listener : Option Nat) :
    Nat × ConnectionPoolManagerInitializer :=
  (self.addr, { self with listener_ := listener })

/-- The method `with_metrics`, lines 71-74. -/
def with_metrics (self : ConnectionPoolManagerInitializer) (metrics : Option Nat) :
    Nat × ConnectionPoolManagerInitializer :=
  (self.addr, { self with metrics_ := metrics })

/-- The method `with_settings`, lines 76-79. -/
def with_settings (self : ConnectionPoolManagerInitializer)
    (settings : ConnectionPoolManagerSettings) :
    Nat × ConnectionPoolManagerInitializer :=
  (self.addr, { self with settings_ := settings })

/-- The method `failures`, lines 81-84: a copy of the failure list. -/
def failures (self : ConnectionPoolManagerInitializer) : List ConnectionPoolConnector :=
  self.failures_

/-- Lines 43-50 of `initialize`: take the self-reference, store the number of addresses
in `remaining_`, allocate the manager from the stored configuration.  The loop over the
addresses is left to do. -/
def initialize_begin (w : World) (addresses : List Address) : World :=
  let w1 := inc_ref w
  let self2 := { w1.self with remaining_ := addresses.length % SIZE_MOD }
  let m : ConnectionPoolManager :=
    { event_loop := self2.event_loop_
      protocol_version := self2.protocol_version_
      keyspace := self2.keyspace_
      listener := self2.listener_
      metrics := self2.metrics_
      settings := self2.settings_
      added := []
      close_calls := 0 }
  { w1 with
    self := { self2 with manager_ := some w1.heap.length }
    heap := w1.heap ++ [m]
    todo := addresses }

/-- Lines 53-57 of `initialize`, the body of the loop at address `a`: create a connector
for `manager_.get()`, the address and `this`, and call `connect()` on it. -/
def initialize_connect (w : World) (a : Address) : World :=
  let pool_connector : ConnectionPoolConnector :=
    { id := w.connectors.length
      manager := w.self.manager_
      address := a
      data := w.self.addr
      outcome := Outcome.pending }
  { w with connectors := w.connectors ++ [pool_connector] }

/-- The loop of `initialize`, lines 51-58, when no connector resolves meanwhile. -/
def initialize_loop (w : World) : List Address → World
  | [] => w
  | a :: rest => initialize_loop (initialize_connect { w with todo := rest } a) rest

/-- The method `initialize`, lines 42-59, when no connector resolves before it returns
(`initialize` itself is a reserved word). -/
def initialize_addresses (w : World) (addresses : List Address) : World :=
  initialize_loop (initialize_begin w addresses) addresses

/-- Lines 92-100 of `handle_connect`, the block under the lock: a pool of a connector
that is ok goes to the manager, a connector that is not goes to the failure list.
`none` when `manager_` is null or dangling at `manager_->add_pool`. -/
def handle_connect_locked (w : World) (pool_connector : ConnectionPoolConnector) :
    Option World :=
  if pool_connector.is_ok then
    match w.self.manager_ with
    | none => none
    | some p =>
      match heap_call w.heap p (fun m => m.add_pool pool_connector.release_pool) with
      | none => none
      | some heap1 => some { w with heap := heap1 }
  else
    some { w with self := { w.self with failures_ := w.self.failures_ ++ [pool_connector] } }

/-- Line 103, `callback_(this)`: the invocation is recorded, and a callback that takes
the manager over leaves `manager_` null. -/
def invoke_callback (cb : Callback) (w : World) (pool_connector : ConnectionPoolConnector) :
    World :=
  let w1 := { w with calls := w.calls ++ [{ handler := pool_connector.id, self := w.self, heap := w.heap }] }
  if cb w.self w.heap then { w1 with self := { w1.self with manager_ := none } } else w1

/-- Line 105, `if (manager_) manager_->close()`; nothing happens for a null `manager_`. -/
def close_unreleased (w : World) : World :=
  match w.self.manager_ with
  | none => w
  | some p =>
    match heap_call w.heap p (fun m => m.close) with
    | none => w
    | some heap1 => { w with heap := heap1 }

/-- Lines 103-106 of `handle_connect`, the branch of the handler that brought
`remaining_` to zero: callback, close of an unreleased manager, `dec_ref`. -/
def handle_connect_last (cb : Callback) (w : World)
    (pool_connector : ConnectionPoolConnector) : World :=
  dec_ref (close_unreleased (invoke_callback cb w pool_connector))

/-- The value `remaining_.fetch_sub(1) - 1` of line 102, in `size_t` arithmetic. -/
def fetch_sub_result (w : World) : Nat :=
  (w.self.remaining_ + SIZE_MOD - 1) % SIZE_MOD

/-- Lines 102-107 of `handle_connect`: `fetch_sub(1)` on `remaining_`, and the last
branch when the result of the subtraction is zero. -/
def handle_connect_count (cb : Callback) (w : World)
    (pool_connector : ConnectionPoolConnector) : World :=
  let w1 := { w with self := { w.self with remaining_ := fetch_sub_result w } }
  if fetch_sub_result w = 0 then handle_connect_last cb w1 pool_connector else w1

/-- The method `handle_connect`, lines 91-108, run without interruption. -/
def handle_connect (cb : Callback) (w : World) (pool_connector : ConnectionPoolConnector) :
    Option World :=
  (handle_connect_locked w pool_connector).map
    (fun w1 => handle_connect_count cb w1 pool_connector)

/-! ## Runs -/

/-- What can happen after the first lines of `initialize`:
* `start`: the loop of `initialize` creates and starts the connector of the next address;
* `merge i ok`: connector `i` resolves, ok or failed, `on_connect` enters its
  `handle_connect`, which runs the locked block;
* `count i`: the handler of connector `i` runs the rest of `handle_connect`;
* `drop`: the caller gives up one of its references;
* `read`: somebody calls `failures()`. -/
inductive Event
  | start
  | merge (i : Nat) (ok : Bool)
  | count (i : Nat)
  | drop
  | read
  deriving DecidableEq, Repr

/-- Whether the event is the `fetch_sub` of a handler. -/
def Event.is_count : Event → Bool
  | Event.count _ => true
  | _ => false

/-- Connector `c` once it has resolved. -/
def resolve (c : ConnectionPoolConnector) (ok : Bool) : ConnectionPoolConnector :=
  { c with outcome := if ok then Outcome.ok else Outcome.failed }

/-- The identities of the connectors whose handler has run the locked block. -/
def World.merged_ids (w : World) : List Nat := w.merged.map (fun c => c.id)

/-- The identities of the connectors whose handler has run `fetch_sub`. -/
def World.counted_ids (w : World) : List Nat := w.counted.map (fun p => p.1)

/-- Whether the surroundings can produce the event: the loop has an address left, the
connector exists and has not been handled yet, the handler is between the locked block
and `fetch_sub`, the caller has a reference to drop. -/
def enabled (w : World) : Event → Bool
  | Event.start => !w.todo.isEmpty
  | Event.merge i _ => decide (i < w.connectors.length) && !w.merged_ids.contains i
  | Event.count i => w.merged_ids.contains i && !w.counted_ids.contains i
  | Event.drop => decide (0 < w.caller_refs)
  | Event.read => !w.destroyed

/-- The trampoline `on_connect`, lines 86-89, up to the end of the locked block of
`handle_connect`: the initializer is recovered from `data()`.  `none` when the
connector belongs to another object or the initializer is gone. -/
def on_connect (w : World) (pool_connector : ConnectionPoolConnector) : Option World :=
  if w.destroyed || pool_connector.data != w.self.addr then none
  else (handle_connect_locked w pool_connector).map
    (fun w1 => { w1 with merged := w1.merged ++ [pool_connector] })

/-- One event.  `none` when the event is not enabled or the code runs into a null
pointer or a deallocated initializer. -/
def step (cb : Callback) (w : World) (e : Event) : Option World :=
  if enabled w e then
    match e with
    | Event.start =>
      match w.todo with
      | [] => none
      | a :: rest =>
        if w.destroyed then none else some (initialize_connect { w with todo := rest } a)
    | Event.merge i ok =>
      match w.connectors[i]? with
      | none => none
      | some c => on_connect w (resolve c ok)
    | Event.count i =>
      match w.merged.find? (fun c => c.id == i) with
      | none => none
      | some c =>
        if w.destroyed then none
        else some (handle_connect_count cb
          { w with counted := w.counted ++ [(i, w.self.remaining_)] } c)
    | Event.drop => some (dec_ref { w with caller_refs := w.caller_refs - 1 })
    | Event.read => some w
  else none

/-- A sequence of events. -/
def run (cb : Callback) (w : World) : List Event → Option World
  | [] => some w
  | e :: es => (step cb w e).bind (fun w1 => run cb w1 es)

/-- A newly built initializer of which the caller holds `refs` references. -/
def World.fresh (self : ConnectionPoolManagerInitializer) (refs : Nat) : World :=
  { self := { self with ref_count := refs }
    destroyed := false
    heap := []
    todo := []
    connectors := []
    merged := []
    counted := []
    calls := []
    caller_refs := refs }

/-- The world after the first lines of `initialize(addresses)` on a new initializer. -/
def boot (self : ConnectionPoolManagerInitializer) (refs : Nat) (addresses : List Address) :
    World :=
  initialize_begin (World.fresh self refs) addresses

/-- A call of one of the four builder methods. -/
inductive BuilderCall
  | keyspace (keyspace : String)
  | listener (listener : Option Nat)
  | metrics (metrics : Option Nat)
  | settings (settings : ConnectionPoolManagerSettings)
  deriving DecidableEq, Repr

/-- The object after a builder call. -/
def apply_builder (self : ConnectionPoolManagerInitializer) :
    BuilderCall → ConnectionPoolManagerInitializer
  | BuilderCall.keyspace k => (with_keyspace self k).2
  | BuilderCall.listener l => (with_listener self l).2
  | BuilderCall.metrics m => (with_metrics self m).2
  | BuilderCall.settings s => (with_settings self s).2

/-- The object after a sequence of builder calls. -/
def configure (self : ConnectionPoolManagerInitializer) (calls : List BuilderCall) :
    ConnectionPoolManagerInitializer :=
  calls.foldl apply_builder self

/-- How the caller sets an initializer up before `initialize`: the constructor
arguments, the builder calls, and the number of references the caller holds. -/
structure Setup where
  addr : Nat
  event_loop : Nat
  protocol_version : Int
  data : Nat
  default_settings : ConnectionPoolManagerSettings
  builders : List BuilderCall
  refs : Nat
  deriving DecidableEq, Repr

/-- The initializer the setup produces. -/
def Setup.self (su : Setup) : ConnectionPoolManagerInitializer :=
  configure (construct su.addr su.event_loop su.protocol_version su.data su.default_settings)
    su.builders

/-- The setup, the first lines of `initialize(addresses)`, and then the events. -/
def exec (cb : Callback) (su : Setup) (addresses : List Address) (events : List Event) :
    Option World :=
  run cb (boot su.self su.refs addresses) events

/-- Connector `i` resolves and its handler runs to the end at once. -/
def complete (i : Nat) (ok : Bool) : List Event := [Event.merge i ok, Event.count i]

/-- The connectors of `order` resolve one after the other, connector `i` with outcome
`oc i`, and the handler of each runs to the end before the next resolves. -/
def completions (oc : Nat → Bool) : List Nat → List Event
  | [] => []
  | i :: rest => Event.merge i (oc i) :: Event.count i :: completions oc rest

/-- All the ways to interleave two sequences, each kept in its own order. -/
def interleavings {α : Type} : List α → List α → List (List α)
  | [], ys => [ys]
  | x :: xs, [] => [x :: xs]
  | x :: xs, y :: ys =>
    (interleavings xs (y :: ys)).map (fun l => x :: l) ++
      (interleavings (x :: xs) ys).map (fun l => y :: l)
termination_by xs ys => xs.length + ys.length

/-- What the code of the initializer reads and writes of a world: everything but the
loop position and the logs of started and handled connectors. -/
def World.visible (w : World) :
    ConnectionPoolManagerInitializer × Bool × List ConnectionPoolManager × List Invocation × Nat :=
  (w.self, w.destroyed, w.heap, w.calls, w.caller_refs)

/-! ## Last write wins -/

/-- The keyspace a builder call passes, when it is `with_keyspace`. -/
def pick_keyspace : BuilderCall → Option String
  | BuilderCall.keyspace k => some k
  | _ => none

/-- The listener a builder call passes, when it is `with_listener`. -/
def pick_listener : BuilderCall → Option (Option Nat)
  | BuilderCall.listener l => some l
  | _ => none

/-- The metrics a builder call passes, when it is `with_metrics`. -/
def pick_metrics : BuilderCall → Option (Option Nat)
  | BuilderCall.metrics m => some m
  | _ => none

/-- The settings a builder call passes, when it is `with_settings`. -/
def pick_settings : BuilderCall → Option ConnectionPoolManagerSettings
  | BuilderCall.settings s => some s
  | _ => none

/-- The spec's "last write wins": the argument of the last call of one builder among
`calls`, or `default` when that builder was never called. -/
def last_write {α : Type} (pick : BuilderCall → Option α) (calls : List BuilderCall)
    (default : α) : α :=
  ((calls.filterMap pick).getLast?).getD default

/-! ## The invariant of a run -/

/-- The pools of the connectors of `l` that are ok, in order. -/
def pools_of (l : List ConnectionPoolConnector) : List Pool :=
  (l.filter (fun c => c.is_ok)).map (fun c => c.release_pool)

/-- The connectors of `l` that are not ok, in order. -/
def failed_of (l : List ConnectionPoolConnector) : List ConnectionPoolConnector :=
  l.filter (fun c => !c.is_ok)

/-- The manager built from the configuration of `s0`, after the given calls. -/
def manager_of (s0 : ConnectionPoolManagerInitializer) (added : List Pool) (closes : Nat) :
    ConnectionPoolManager :=
  { event_loop := s0.event_loop_
    protocol_version := s0.protocol_version_
    keyspace := s0.keyspace_
    listener := s0.listener_
    metrics := s0.metrics_
    settings := s0.settings_
    added := added
    close_calls := closes }

/-- The initializer `s0` with the four fields that `initialize` and `handle_connect`
write replaced. -/
def self_of (s0 : ConnectionPoolManagerInitializer) (rc : Int) (remaining : Nat)
    (manager : Option Nat) (failed : List ConnectionPoolConnector) :
    ConnectionPoolManagerInitializer :=
  { s0 with ref_count := rc, remaining_ := remaining, manager_ := manager, failures_ := failed }

/-- The connector that `initialize` creates for the address at position `i`. -/
def connector_of (s0 : ConnectionPoolManagerInitializer) (addresses : List Address)
    (i : Nat) : ConnectionPoolConnector :=
  { id := i, manager := some 0, address := addresses.getD i 0, data := s0.addr,
    outcome := Outcome.pending }

/-- Every one of the connectors of a non-empty address list has been through
`fetch_sub`. -/
def finished (addresses : List Address) (w : World) : Prop :=
  0 < addresses.length ∧ w.counted.length = addresses.length

instance (addresses : List Address) (w : World) : Decidable (finished addresses w) := by
  unfold finished; infer_instance

/-- What holds in every state of a run of `initialize(addresses)` on the initializer
`s0` with callback `cb`. -/
structure Inv (cb : Callback) (s0 : ConnectionPoolManagerInitializer)
    (addresses : List Address) (w : World) : Prop where
  todo_eq : w.todo = addresses.drop w.connectors.length
  conn_le : w.connectors.length ≤ addresses.length
  conn_at : ∀ i c, w.connectors[i]? = some c → c = connector_of s0 addresses i
  merged_nodup : w.merged_ids.Nodup
  merged_from : ∀ c ∈ w.merged, ∃ ok, c = resolve (connector_of s0 addresses c.id) ok ∧
    c.id < w.connectors.length
  counted_nodup : w.counted_ids.Nodup
  counted_sub : ∀ i ∈ w.counted_ids, i ∈ w.merged_ids
  counted_val : ∀ j p, w.counted[j]? = some p → p.2 = addresses.length - j
  self_eq : w.self = self_of s0 w.self.ref_count (addresses.length - w.counted.length)
    w.self.manager_ (failed_of w.merged)
  before : ¬ finished addresses w →
    w.calls = [] ∧ w.self.manager_ = some 0 ∧
    w.heap = [manager_of s0 (pools_of w.merged) 0] ∧
    w.destroyed = false ∧ w.self.ref_count = w.caller_refs + 1
  after : finished addresses w → ∃ inv,
    w.calls = [inv] ∧ w.counted.getLast? = some (inv.handler, 1) ∧
    inv.self = self_of s0 inv.self.ref_count 0 (some 0) (failed_of w.merged) ∧
    1 ≤ inv.self.ref_count ∧
    inv.heap = [manager_of s0 (pools_of w.merged) 0] ∧
    w.self.manager_ = (if cb inv.self inv.heap then none else some 0) ∧
    w.heap = [manager_of s0 (pools_of w.merged) (if cb inv.self inv.heap then 0 else 1)] ∧
    w.destroyed = decide (w.caller_refs = 0) ∧ w.self.ref_count = w.caller_refs

/-- The invocation made by the handler of connector `i` when it is the last. -/
def last_invocation (s0 : ConnectionPoolManagerInitializer) (w : World) (i : Nat) :
    Invocation :=
  { handler := i
    self := self_of s0 (w.caller_refs + 1) 0 (some 0) (failed_of w.merged)
    heap := [manager_of s0 (pools_of w.merged) 0] }

/-- The state after the locked block of the handler of connector `i`. -/
def after_merge (s0 : ConnectionPoolManagerInitializer) (addresses : List Address)
    (w : World) (i : Nat) (ok : Bool) : World :=
  { w with
    self := { w.self with
      failures_ := failed_of (w.merged ++ [resolve (connector_of s0 addresses i) ok]) }
    heap := [manager_of s0 (pools_of (w.merged ++ [resolve (connector_of s0 addresses i) ok])) 0]
    merged := w.merged ++ [resolve (connector_of s0 addresses i) ok] }

/-- The state after the rest of the handler of connector `i`. -/
def after_count (cb : Callback) (s0 : ConnectionPoolManagerInitializer)
    (addresses : List Address) (w : World) (i : Nat) : World :=
  if w.counted.length + 1 = addresses.length then
    { w with
      self := self_of s0 w.caller_refs 0
        (if cb (last_invocation s0 w i).self (last_invocation s0 w i).heap then none
          else some 0) (failed_of w.merged)
      destroyed := decide (w.caller_refs = 0)
      heap := [manager_of s0 (pools_of w.merged)
        (if cb (last_invocation s0 w i).self (last_invocation s0 w i).heap then 0
          else 1)]
      counted := w.counted ++ [(i, 1)]
      calls := [last_invocation s0 w i] }
  else
    { w with
      self := self_of s0 (w.caller_refs + 1) (addresses.length - (w.counted.length + 1))
        (some 0) (failed_of w.merged)
      counted := w.counted ++ [(i, addresses.length - w.counted.length)] }

/-- The connector an event passes through the locked block of `handle_connect`. -/
def handled_by (s0 : ConnectionPoolManagerInitializer) (addresses : List Address) :
    Event → List ConnectionPoolConnector
  | Event.merge i ok => [resolve (connector_of s0 addresses i) ok]
  | _ => []

/-! ## Sample runs -/

/-- An initializer at address 7 with a keyspace set, of which the caller holds one
reference. -/
def demo_setup : Setup :=
  { addr := 7, event_loop := 1, protocol_version := 4, data := 0,
    default_settings := { tag := 0 },
    builders := [BuilderCall.keyspace "ks"], refs := 1 }

/-- A callback that leaves the manager with the initializer. -/
def demo_decline : Callback := fun _ _ => false

/-- A callback that takes the manager over. -/
def demo_claim : Callback := fun _ _ => true

/-- Three addresses A, B, C. -/
def demo_addresses : List Address := [10, 20, 30]

/-- B fails while `initialize` is still looping, A and C succeed; the handler of B is
overtaken by the handler of A, the caller drops its reference meanwhile. -/
def demo_events : List Event :=
  [Event.start, Event.start, Event.merge 1 false, Event.start, Event.merge 0 true,
   Event.count 0, Event.count 1, Event.drop, Event.merge 2 true, Event.count 2]

/-- The state the sample run ends in. -/
def demo_world : World :=
  (exec demo_decline demo_setup demo_addresses demo_events).getD
    (World.fresh demo_setup.self 0)

/-- The state after `initialize([])` and a call of `failures()`. -/
def demo_empty_world : World :=
  (exec demo_decline demo_setup [] [Event.read]).getD (World.fresh demo_setup.self 0)

/-- Two connectors fail, the second one first, and neither handler has reached
`fetch_sub` yet. -/
def demo_failed_events : List Event :=
  [Event.start, Event.start, Event.merge 1 false, Event.merge 0 false, Event.read]

/-- The state in which the two connectors have failed. -/
def demo_failed_world : World :=
  (exec demo_decline demo_setup [10, 20] demo_failed_events).getD
    (World.fresh demo_setup.self 0)

/-- The state the sample run ends in when the callback takes the manager over. -/
def demo_claimed_world : World :=
  (exec demo_claim demo_setup demo_addresses demo_events).getD
    (World.fresh demo_setup.self 0)

/-- Two connectors started, none resolved yet. -/
def demo_race_world : World :=
  (exec demo_decline demo_setup [10, 20] [Event.start, Event.start]).getD
    (World.fresh demo_setup.self 0)

/-! ## Lists of distinct indices -/

theorem nodup_length_le {l : List Nat} {n : Nat} (hd : l.Nodup) (h : ∀ i ∈ l, i < n) :
    l.length ≤ n := by
  have := (List.subperm_of_subset hd (fun i hi => List.mem_range.2 (h i hi))).length_le
  simpa using this

theorem nodup_subset_length_le {c m : List Nat} (hd : c.Nodup) (h : ∀ i ∈ c, i ∈ m) :
    c.length ≤ m.length :=
  (List.subperm_of_subset hd h).length_le

theorem nodup_subset_length_lt {c m : List Nat} {i : Nat} (hd : c.Nodup)
    (h : ∀ j ∈ c, j ∈ m) (him : i ∈ m) (hic : i ∉ c) : c.length < m.length := by
  have hd2 : (i :: c).Nodup := List.nodup_cons.2 ⟨hic, hd⟩
  have hs : ∀ j ∈ i :: c, j ∈ m := by
    intro j hj
    rcases List.mem_cons.1 hj with rfl | hj
    · exact him
    · exact h j hj
  have := (List.subperm_of_subset hd2 hs).length_le
  simpa using this

theorem nodup_full_mem {l : List Nat} {n : Nat} (hd : l.Nodup) (h : ∀ i ∈ l, i < n)
    (hlen : n ≤ l.length) {i : Nat} (hi : i < n) : i ∈ l := by
  have hp : l.Perm (List.range n) :=
    (List.subperm_of_subset hd (fun i hi => List.mem_range.2 (h i hi))).perm_of_length_le
      (by simpa using hlen)
  exact hp.mem_iff.2 (List.mem_range.2 hi)

/-! ## The invariant holds along every run -/

theorem configure_failures (s : ConnectionPoolManagerInitializer) (bs : List BuilderCall) :
    (configure s bs).failures_ = s.failures_ := by
  induction bs generalizing s with
  | nil => rfl
  | cons b bs ih =>
    show (configure (apply_builder s b) bs).failures_ = s.failures_
    rw [ih]
    cases b <;> rfl

theorem setup_failures (su : Setup) : su.self.failures_ = [] := by
  unfold Setup.self
  rw [configure_failures]
  rfl

theorem Inv.merged_lt {cb : Callback} {s0 : ConnectionPoolManagerInitializer}
    {addresses : List Address} {w : World} (h : Inv cb s0 addresses w) :
    ∀ i ∈ w.merged_ids, i < w.connectors.length := by
  intro i hi
  obtain ⟨c, hc, rfl⟩ := List.mem_map.1 hi
  obtain ⟨_, _, hlt⟩ := h.merged_from c hc
  exact hlt

theorem Inv.merged_le {cb : Callback} {s0 : ConnectionPoolManagerInitializer}
    {addresses : List Address} {w : World} (h : Inv cb s0 addresses w) :
    w.merged.length ≤ w.connectors.length := by
  have := nodup_length_le h.merged_nodup h.merged_lt
  simpa [World.merged_ids] using this

theorem Inv.counted_le {cb : Callback} {s0 : ConnectionPoolManagerInitializer}
    {addresses : List Address} {w : World} (h : Inv cb s0 addresses w) :
    w.counted.length ≤ w.merged.length := by
  have := nodup_subset_length_le h.counted_nodup h.counted_sub
  simpa [World.merged_ids, World.counted_ids] using this

theorem inv_boot (cb : Callback) (s0 : ConnectionPoolManagerInitializer)
    (hs0 : s0.failures_ = []) (refs : Nat) (addresses : List Address)
    (hN : addresses.length < SIZE_MOD) : Inv cb s0 addresses (boot s0 refs addresses) := by
  have hmod : addresses.length % SIZE_MOD = addresses.length := Nat.mod_eq_of_lt hN
  refine
    { todo_eq := by simp [boot, initialize_begin, inc_ref, World.fresh]
      conn_le := by simp [boot, initialize_begin, inc_ref, World.fresh]
      conn_at := by simp [boot, initialize_begin, inc_ref, World.fresh]
      merged_nodup := by simp [boot, initialize_begin, inc_ref, World.fresh, World.merged_ids]
      merged_from := by simp [boot, initialize_begin, inc_ref, World.fresh]
      counted_nodup := by simp [boot, initialize_begin, inc_ref, World.fresh, World.counted_ids]
      counted_sub := by simp [boot, initialize_begin, inc_ref, World.fresh, World.counted_ids]
      counted_val := by simp [boot, initialize_begin, inc_ref, World.fresh]
      self_eq := by
        simp [boot, initialize_begin, inc_ref, World.fresh, self_of, failed_of, hmod, hs0]
      before := ?_
      after := ?_ }
  · intro _
    simp [boot, initialize_begin, inc_ref, World.fresh, manager_of, pools_of]
  · intro hf
    obtain ⟨hpos, hlen⟩ := hf
    simp [boot, initialize_begin, inc_ref, World.fresh] at hlen
    omega

theorem step_start (cb : Callback) (w : World) :
    step cb w Event.start =
      if enabled w Event.start then
        match w.todo with
        | [] => none
        | a :: rest =>
          if w.destroyed then none else some (initialize_connect { w with todo := rest } a)
      else none := rfl

theorem step_merge (cb : Callback) (w : World) (i : Nat) (ok : Bool) :
    step cb w (Event.merge i ok) =
      if enabled w (Event.merge i ok) then
        match w.connectors[i]? with
        | none => none
        | some c => on_connect w (resolve c ok)
      else none := rfl

theorem step_count (cb : Callback) (w : World) (i : Nat) :
    step cb w (Event.count i) =
      if enabled w (Event.count i) then
        match w.merged.find? (fun c => c.id == i) with
        | none => none
        | some c =>
          if w.destroyed then none
          else some (handle_connect_count cb
            { w with counted := w.counted ++ [(i, w.self.remaining_)] } c)
      else none := rfl

theorem step_drop (cb : Callback) (w : World) :
    step cb w Event.drop =
      if enabled w Event.drop then some (dec_ref { w with caller_refs := w.caller_refs - 1 })
      else none := rfl

theorem step_read (cb : Callback) (w : World) :
    step cb w Event.read = if enabled w Event.read then some w else none := rfl

theorem inv_read {cb : Callback} {s0 : ConnectionPoolManagerInitializer}
    {addresses : List Address} {w w1 : World} (h : Inv cb s0 addresses w)
    (hs : step cb w Event.read = some w1) : Inv cb s0 addresses w1 := by
  rw [step_read] at hs
  split at hs
  · simp only [Option.some.injEq] at hs
    exact hs ▸ h
  · simp at hs

theorem inv_drop {cb : Callback} {s0 : ConnectionPoolManagerInitializer}
    {addresses : List Address} {w w1 : World} (h : Inv cb s0 addresses w)
    (hs : step cb w Event.drop = some w1) : Inv cb s0 addresses w1 := by
  rw [step_drop] at hs
  split at hs
  next hen =>
    simp only [enabled, decide_eq_true_eq] at hen
    simp only [Option.some.injEq] at hs
    subst hs
    have hfin : ∀ p : Prop, (finished addresses
        (dec_ref { w with caller_refs := w.caller_refs - 1 }) → p) ↔
        (finished addresses w → p) := fun p => Iff.rfl
    refine
      { todo_eq := h.todo_eq
        conn_le := h.conn_le
        conn_at := h.conn_at
        merged_nodup := h.merged_nodup
        merged_from := h.merged_from
        counted_nodup := h.counted_nodup
        counted_sub := h.counted_sub
        counted_val := h.counted_val
        self_eq := ?_
        before := ?_
        after := ?_ }
    · have := h.self_eq
      simp only [dec_ref]
      rw [this]
      simp [self_of]
    · intro hf
      obtain ⟨h1, h2, h3, h4, h5⟩ := h.before hf
      refine ⟨h1, h2, h3, ?_, ?_⟩
      · simp only [dec_ref, h4, h5, Bool.false_or, decide_eq_false_iff_not]
        omega
      · simp only [dec_ref, h5]
        omega
    · intro hf
      obtain ⟨inv, h1, h2, h3, h4, h5, h6, h7, h8, h9⟩ := h.after hf
      refine ⟨inv, h1, h2, h3, h4, h5, h6, h7, ?_, ?_⟩
      · simp only [dec_ref, h8, h9]
        have : decide (w.caller_refs = 0) = false := by simp; omega
        rw [this]
        simp only [Bool.false_or]
        congr 1
        apply propext
        constructor <;> intro hh <;> omega
      · simp only [dec_ref, h9]
        omega
  · simp at hs

theorem inv_start {cb : Callback} {s0 : ConnectionPoolManagerInitializer}
    {addresses : List Address} {w w1 : World} (h : Inv cb s0 addresses w)
    (hs : step cb w Event.start = some w1) : Inv cb s0 addresses w1 := by
  rw [step_start] at hs
  split at hs
  next hen =>
    split at hs
    · simp at hs
    next a rest htodo =>
      split at hs
      · simp at hs
      simp only [Option.some.injEq] at hs
      subst hs
      have hdrop := h.todo_eq
      rw [htodo] at hdrop
      have hlt : w.connectors.length < addresses.length := by
        by_contra hge
        rw [List.drop_of_length_le (by omega)] at hdrop
        simp at hdrop
      have hA : addresses[w.connectors.length] = a ∧
          addresses.drop (w.connectors.length + 1) = rest := by
        rw [List.drop_eq_getElem_cons hlt] at hdrop
        injection hdrop with e1 e2
        exact ⟨e1.symm, e2.symm⟩
      have hnf : ¬ finished addresses w := by
        intro hf
        have := h.counted_le
        have := h.merged_le
        have := hf.2
        omega
      obtain ⟨b1, b2, b3, b4, b5⟩ := h.before hnf
      refine
        { todo_eq := by simp [initialize_connect, hA.2]
          conn_le := by simp [initialize_connect]; omega
          conn_at := ?_
          merged_nodup := h.merged_nodup
          merged_from := ?_
          counted_nodup := h.counted_nodup
          counted_sub := h.counted_sub
          counted_val := h.counted_val
          self_eq := h.self_eq
          before := fun _ => ⟨b1, b2, b3, b4, b5⟩
          after := fun hf => absurd hf hnf }
      · intro i c hc
        simp only [initialize_connect] at hc
        by_cases hi : i < w.connectors.length
        · rw [List.getElem?_append_left hi] at hc
          exact h.conn_at i c hc
        · rw [List.getElem?_append_right (by omega)] at hc
          have hi0 : i = w.connectors.length := by
            by_contra hne
            have : i - w.connectors.length ≠ 0 := by omega
            obtain ⟨k, hk⟩ := Nat.exists_eq_succ_of_ne_zero this
            rw [hk] at hc
            simp at hc
          subst hi0
          simp only [Nat.sub_self, List.getElem?_cons_zero, Option.some.injEq] at hc
          subst hc
          have haddr : w.self.addr = s0.addr := by rw [h.self_eq]; rfl
          have hget : a = addresses[w.connectors.length]?.getD 0 := by
            rw [List.getElem?_eq_getElem hlt]
            simp [hA.1]
          simp [connector_of, b2, haddr, ← hget]
      · intro c hc
        obtain ⟨ok, h1, h2⟩ := h.merged_from c hc
        refine ⟨ok, h1, ?_⟩
        simp only [initialize_connect, List.length_append, List.length_singleton]
        omega
  · simp at hs

theorem Inv.not_finished_of_unmerged {cb : Callback} {s0 : ConnectionPoolManagerInitializer}
    {addresses : List Address} {w : World} (h : Inv cb s0 addresses w) {i : Nat}
    (hi : i < w.connectors.length) (hnm : i ∉ w.merged_ids) : ¬ finished addresses w := by
  intro hf
  have h1 := h.counted_le
  have h2 := h.merged_le
  have h3 := h.conn_le
  have h4 := hf.2
  have hlen : w.connectors.length ≤ w.merged_ids.length := by
    simp only [World.merged_ids, List.length_map]
    omega
  exact hnm (nodup_full_mem h.merged_nodup h.merged_lt hlen hi)

theorem resolve_is_ok (c : ConnectionPoolConnector) (ok : Bool) : (resolve c ok).is_ok = ok := by
  cases ok <;> simp [resolve, ConnectionPoolConnector.is_ok]

theorem pools_of_append (l : List ConnectionPoolConnector) (c : ConnectionPoolConnector) :
    pools_of (l ++ [c]) = pools_of l ++ (if c.is_ok then [c.release_pool] else []) := by
  unfold pools_of
  rw [List.filter_append, List.map_append]
  by_cases hc : c.is_ok <;> simp [hc]

theorem failed_of_append (l : List ConnectionPoolConnector) (c : ConnectionPoolConnector) :
    failed_of (l ++ [c]) = failed_of l ++ (if c.is_ok then [] else [c]) := by
  unfold failed_of
  rw [List.filter_append]
  by_cases hc : c.is_ok <;> simp [hc]

/-- The locked block in a state of a run that is not finished. -/
theorem locked_eq {cb : Callback} {s0 : ConnectionPoolManagerInitializer}
    {addresses : List Address} {w : World} (h : Inv cb s0 addresses w)
    (hnf : ¬ finished addresses w) (c : ConnectionPoolConnector) :
    handle_connect_locked w c = some
      { w with
        self := { w.self with failures_ := failed_of (w.merged ++ [c]) }
        heap := [manager_of s0 (pools_of (w.merged ++ [c])) 0] } := by
  obtain ⟨b1, b2, b3, b4, b5⟩ := h.before hnf
  have hfail : w.self.failures_ = failed_of w.merged := by
    have := h.self_eq
    rw [this]
    rfl
  clear h hnf b1 b4 b5
  rcases w with ⟨⟨a1, a2, a3, a4, a5, a6, a7, a8, a9, a10, mgr, fl⟩, de, hp, td, cn, mg, ct, cl, cr⟩
  simp only at b2 b3 hfail
  subst b2 b3 hfail
  unfold handle_connect_locked
  by_cases hc : c.is_ok
  · simp [hc, heap_call, pools_of_append, failed_of_append, manager_of,
      ConnectionPoolManager.add_pool]
  · simp [hc, pools_of_append, failed_of_append]

theorem inv_merge {cb : Callback} {s0 : ConnectionPoolManagerInitializer}
    {addresses : List Address} {w w1 : World} (h : Inv cb s0 addresses w) {i : Nat} {ok : Bool}
    (hs : step cb w (Event.merge i ok) = some w1) : Inv cb s0 addresses w1 := by
  rw [step_merge] at hs
  split at hs
  next hen =>
    simp only [enabled, Bool.and_eq_true, decide_eq_true_eq, Bool.not_eq_true',
      List.contains_eq_any_beq, List.any_eq_false, beq_iff_eq] at hen
    obtain ⟨hi, hnm⟩ := hen
    have hnm2 : i ∉ w.merged_ids := fun hm => hnm i hm rfl
    have hnf := h.not_finished_of_unmerged hi hnm2
    obtain ⟨b1, b2, b3, b4, b5⟩ := h.before hnf
    have haddr : w.self.addr = s0.addr := by rw [h.self_eq]; rfl
    rw [List.getElem?_eq_getElem hi] at hs
    have hc0 := h.conn_at i _ (List.getElem?_eq_getElem hi)
    simp only [hc0, on_connect, b4, Bool.false_or] at hs
    have hdata : (resolve (connector_of s0 addresses i) ok).data = w.self.addr := by
      rw [haddr]; rfl
    simp only [hdata, bne_self_eq_false, Bool.false_eq_true, if_false, locked_eq h hnf,
      Option.map_some', Option.some.injEq] at hs
    subst hs
    have hid : (resolve (connector_of s0 addresses i) ok).id = i := rfl
    refine
      { todo_eq := h.todo_eq
        conn_le := h.conn_le
        conn_at := h.conn_at
        merged_nodup := ?_
        merged_from := ?_
        counted_nodup := h.counted_nodup
        counted_sub := ?_
        counted_val := h.counted_val
        self_eq := ?_
        before := ?_
        after := fun hf => absurd hf hnf }
    · show (List.map (fun c => c.id) (w.merged ++ [_])).Nodup
      rw [List.map_append, List.map_singleton, hid]
      exact List.Nodup.append h.merged_nodup (List.nodup_singleton i)
        (by
          intro a ha1 ha2
          rw [List.mem_singleton] at ha2
          exact hnm2 (ha2 ▸ ha1))
    · intro c hc
      rcases List.mem_append.1 hc with hc | hc
      · exact h.merged_from c hc
      · rw [List.mem_singleton] at hc
        subst hc
        exact ⟨ok, rfl, hi⟩
    · intro j hj
      show j ∈ List.map (fun c => c.id) (w.merged ++ [_])
      rw [List.map_append]
      exact List.mem_append_left _ (h.counted_sub j hj)
    · have := h.self_eq
      show _ = self_of s0 _ _ _ _
      conv_lhs => rw [this]
      conv_rhs => rw [this]
      rfl
    · intro _
      exact ⟨b1, b2, rfl, b4, b5⟩
  · simp at hs

/-- The state of a run that is not finished, written out. -/
theorem Inv.unfinished_eq {cb : Callback} {s0 : ConnectionPoolManagerInitializer}
    {addresses : List Address} {w : World} (h : Inv cb s0 addresses w)
    (hnf : ¬ finished addresses w) :
    w = { w with
          self := self_of s0 (w.caller_refs + 1) (addresses.length - w.counted.length) (some 0)
            (failed_of w.merged)
          destroyed := false
          heap := [manager_of s0 (pools_of w.merged) 0]
          calls := [] } := by
  obtain ⟨b1, b2, b3, b4, b5⟩ := h.before hnf
  have hs := h.self_eq
  rw [b2, b5] at hs
  rcases w with ⟨self, de, hp, td, cn, mg, ct, cl, cr⟩
  simp only at b1 b3 b4 hs
  subst b1 b3 b4
  rw [← hs]

/-- The rest of `handle_connect` in a state of a run that is not finished. -/
theorem count_eq {cb : Callback} {s0 : ConnectionPoolManagerInitializer}
    {addresses : List Address} {w : World} (h : Inv cb s0 addresses w)
    (hnf : ¬ finished addresses w) (hk : w.counted.length < addresses.length)
    (hN : addresses.length < SIZE_MOD) (i : Nat) (c : ConnectionPoolConnector) :
    handle_connect_count cb { w with counted := w.counted ++ [(i, w.self.remaining_)] } c =
      if w.counted.length + 1 = addresses.length then
        { w with
          self := self_of s0 w.caller_refs 0
            (if cb (last_invocation s0 w c.id).self (last_invocation s0 w c.id).heap then none
              else some 0) (failed_of w.merged)
          destroyed := decide (w.caller_refs = 0)
          heap := [manager_of s0 (pools_of w.merged)
            (if cb (last_invocation s0 w c.id).self (last_invocation s0 w c.id).heap then 0
              else 1)]
          counted := w.counted ++ [(i, 1)]
          calls := [last_invocation s0 w c.id] }
      else
        { w with
          self := self_of s0 (w.caller_refs + 1) (addresses.length - (w.counted.length + 1))
            (some 0) (failed_of w.merged)
          counted := w.counted ++ [(i, addresses.length - w.counted.length)] } := by
  have hw := h.unfinished_eq hnf
  have hfs : (addresses.length - w.counted.length + SIZE_MOD - 1) % SIZE_MOD =
      addresses.length - (w.counted.length + 1) := by
    have e : addresses.length - w.counted.length + SIZE_MOD - 1 =
        addresses.length - (w.counted.length + 1) + SIZE_MOD := by omega
    rw [e, Nat.add_mod_right, Nat.mod_eq_of_lt (by omega)]
  rcases w with ⟨self, de, hp, td, cn, mg, ct, cl, cr⟩
  simp only [World.mk.injEq, true_and, and_true] at hw
  obtain ⟨e1, e2, e3, e4⟩ := hw
  subst e1 e2 e3 e4
  simp only at hk hfs
  by_cases hlast : ct.length + 1 = addresses.length
  · have hz : addresses.length - (ct.length + 1) = 0 := by omega
    have h1 : addresses.length - ct.length = 1 := by omega
    simp only [handle_connect_count, fetch_sub_result, self_of, hfs, hz, hlast, if_true,
      handle_connect_last, invoke_callback, last_invocation, List.nil_append, h1]
    by_cases hcb : cb (self_of s0 (cr + 1) 0 (some 0) (failed_of mg))
        [manager_of s0 (pools_of mg) 0] = true
    · simp only [self_of, manager_of] at hcb
      simp [hcb, close_unreleased, dec_ref, manager_of]
    · simp only [self_of, manager_of] at hcb
      simp [hcb, close_unreleased, dec_ref, heap_call, manager_of, ConnectionPoolManager.close]
  · have hz : addresses.length - (ct.length + 1) ≠ 0 := by omega
    simp only [handle_connect_count, fetch_sub_result, self_of, hfs, hz, hlast, if_false]

/-- The step of a handler that runs `fetch_sub`, written out. -/
theorem step_count_eq {cb : Callback} {s0 : ConnectionPoolManagerInitializer}
    {addresses : List Address} {w w1 : World} (h : Inv cb s0 addresses w)
    (hN : addresses.length < SIZE_MOD) {i : Nat}
    (hs : step cb w (Event.count i) = some w1) :
    i ∈ w.merged_ids ∧ i ∉ w.counted_ids ∧ ¬ finished addresses w ∧
    w.counted.length < addresses.length ∧
    w1 = if w.counted.length + 1 = addresses.length then
        { w with
          self := self_of s0 w.caller_refs 0
            (if cb (last_invocation s0 w i).self (last_invocation s0 w i).heap then none
              else some 0) (failed_of w.merged)
          destroyed := decide (w.caller_refs = 0)
          heap := [manager_of s0 (pools_of w.merged)
            (if cb (last_invocation s0 w i).self (last_invocation s0 w i).heap then 0
              else 1)]
          counted := w.counted ++ [(i, 1)]
          calls := [last_invocation s0 w i] }
      else
        { w with
          self := self_of s0 (w.caller_refs + 1) (addresses.length - (w.counted.length + 1))
            (some 0) (failed_of w.merged)
          counted := w.counted ++ [(i, addresses.length - w.counted.length)] } := by
  rw [step_count] at hs
  split at hs
  next hen =>
    simp only [enabled, Bool.and_eq_true, Bool.not_eq_true', List.contains_eq_any_beq,
      List.any_eq_true, List.any_eq_false, beq_iff_eq] at hen
    obtain ⟨⟨j, hj, hji⟩, hnc⟩ := hen
    subst hji
    have hnc2 : i ∉ w.counted_ids := fun hm => hnc i hm rfl
    have hk : w.counted.length < addresses.length := by
      have h1 := nodup_subset_length_lt h.counted_nodup h.counted_sub hj hnc2
      have h2 := h.merged_le
      have h3 := h.conn_le
      simp only [World.merged_ids, World.counted_ids, List.length_map] at h1
      omega
    have hnf : ¬ finished addresses w := fun hf => by
      have := hf.2
      omega
    obtain ⟨b1, b2, b3, b4, b5⟩ := h.before hnf
    split at hs
    · simp at hs
    next c hfind =>
      have hcid : c.id = i := by
        have := List.find?_some hfind
        simpa using this
      have hd : ¬ (w.destroyed = true) := by simp [b4]
      rw [if_neg hd] at hs
      simp only [Option.some.injEq] at hs
      rw [count_eq h hnf hk hN, hcid] at hs
      exact ⟨hj, hnc2, hnf, hk, hs.symm⟩
  · simp at hs

theorem inv_count {cb : Callback} {s0 : ConnectionPoolManagerInitializer}
    {addresses : List Address} {w w1 : World} (h : Inv cb s0 addresses w)
    (hN : addresses.length < SIZE_MOD) {i : Nat}
    (hs : step cb w (Event.count i) = some w1) : Inv cb s0 addresses w1 := by
  obtain ⟨hm, hnc, hnf, hk, hw1⟩ := step_count_eq h hN hs
  obtain ⟨b1, b2, b3, b4, b5⟩ := h.before hnf
  have hnodup : ∀ v : Nat, (List.map (fun p : Nat × Nat => p.1) (w.counted ++ [(i, v)])).Nodup := by
    intro v
    rw [List.map_append, List.map_singleton]
    show (w.counted_ids ++ [i]).Nodup
    exact List.Nodup.append h.counted_nodup (List.nodup_singleton i)
      (by
        intro a ha1 ha2
        rw [List.mem_singleton] at ha2
        exact hnc (ha2 ▸ ha1))
  have hsub : ∀ v : Nat, ∀ j ∈ List.map (fun p : Nat × Nat => p.1) (w.counted ++ [(i, v)]),
      j ∈ w.merged_ids := by
    intro v j hj
    rw [List.map_append, List.map_singleton, List.mem_append, List.mem_singleton] at hj
    rcases hj with hj | hj
    · exact h.counted_sub j hj
    · have hji : j = i := hj
      exact hji ▸ hm
  have hval : ∀ j p, (w.counted ++ [(i, addresses.length - w.counted.length)])[j]? = some p →
      p.2 = addresses.length - j := by
    intro j p hp
    by_cases hj : j < w.counted.length
    · rw [List.getElem?_append_left hj] at hp
      exact h.counted_val j p hp
    · rw [List.getElem?_append_right (by omega)] at hp
      have hj0 : j = w.counted.length := by
        by_contra hne
        have : j - w.counted.length ≠ 0 := by omega
        obtain ⟨k, hk⟩ := Nat.exists_eq_succ_of_ne_zero this
        rw [hk] at hp
        simp at hp
      subst hj0
      simp only [Nat.sub_self, List.getElem?_cons_zero, Option.some.injEq] at hp
      rw [← hp]
  by_cases hlast : w.counted.length + 1 = addresses.length
  · rw [if_pos hlast] at hw1
    have h1 : addresses.length - w.counted.length = 1 := by omega
    rw [h1] at hval
    subst hw1
    have hfin : finished addresses
        { w with
          self := self_of s0 w.caller_refs 0
            (if cb (last_invocation s0 w i).self (last_invocation s0 w i).heap then none
              else some 0) (failed_of w.merged)
          destroyed := decide (w.caller_refs = 0)
          heap := [manager_of s0 (pools_of w.merged)
            (if cb (last_invocation s0 w i).self (last_invocation s0 w i).heap then 0
              else 1)]
          counted := w.counted ++ [(i, 1)]
          calls := [last_invocation s0 w i] } := by
      refine ⟨by omega, ?_⟩
      simp only [List.length_append, List.length_singleton]
      exact hlast
    refine
      { todo_eq := h.todo_eq
        conn_le := h.conn_le
        conn_at := h.conn_at
        merged_nodup := h.merged_nodup
        merged_from := h.merged_from
        counted_nodup := hnodup 1
        counted_sub := hsub 1
        counted_val := hval
        self_eq := ?_
        before := fun hnf1 => absurd hfin hnf1
        after := fun _ => ⟨last_invocation s0 w i, rfl, ?_, rfl, ?_, rfl, rfl, rfl, rfl, rfl⟩ }
    · simp only [self_of, List.length_append, List.length_singleton, ← hlast, Nat.sub_self]
    · simp [last_invocation]
    · simp only [last_invocation, self_of]
      omega
  · rw [if_neg hlast] at hw1
    subst hw1
    have hnfin : ¬ finished addresses
        { w with
          self := self_of s0 (w.caller_refs + 1) (addresses.length - (w.counted.length + 1))
            (some 0) (failed_of w.merged)
          counted := w.counted ++ [(i, addresses.length - w.counted.length)] } := by
      intro hf
      have := hf.2
      simp only [List.length_append, List.length_singleton] at this
      exact hlast this
    refine
      { todo_eq := h.todo_eq
        conn_le := h.conn_le
        conn_at := h.conn_at
        merged_nodup := h.merged_nodup
        merged_from := h.merged_from
        counted_nodup := hnodup _
        counted_sub := hsub _
        counted_val := hval
        self_eq := ?_
        before := fun _ => ⟨b1, rfl, b3, b4, rfl⟩
        after := fun hf => absurd hf hnfin }
    simp only [self_of, List.length_append, List.length_singleton]

/-- The invariant is kept by every event. -/
theorem inv_step {cb : Callback} {s0 : ConnectionPoolManagerInitializer}
    {addresses : List Address} {w w1 : World} (h : Inv cb s0 addresses w)
    (hN : addresses.length < SIZE_MOD) {e : Event}
    (hs : step cb w e = some w1) : Inv cb s0 addresses w1 := by
  cases e with
  | start => exact inv_start h hs
  | merge i ok => exact inv_merge h hs
  | count i => exact inv_count h hN hs
  | drop => exact inv_drop h hs
  | read => exact inv_read h hs

/-- The invariant is kept by every sequence of events. -/
theorem inv_run {cb : Callback} {s0 : ConnectionPoolManagerInitializer}
    {addresses : List Address} (hN : addresses.length < SIZE_MOD) (events : List Event) :
    ∀ {w w1 : World}, Inv cb s0 addresses w → run cb w events = some w1 →
      Inv cb s0 addresses w1 := by
  induction events with
  | nil =>
    intro w w1 h hr
    simp only [run, Option.some.injEq] at hr
    exact hr ▸ h
  | cons e es ih =>
    intro w w1 h hr
    simp only [run] at hr
    cases hst : step cb w e with
    | none => simp [hst] at hr
    | some w2 =>
      simp only [hst, Option.some_bind] at hr
      exact ih (inv_step h hN hst) hr

/-- The invariant holds in every state a run reaches. -/
theorem inv_exec {cb : Callback} {su : Setup} {addresses : List Address}
    (hN : addresses.length < SIZE_MOD) {events : List Event} {w : World}
    (hr : exec cb su addresses events = some w) : Inv cb su.self addresses w :=
  inv_run hN events (inv_boot cb su.self (setup_failures su) su.refs addresses hN) hr

theorem enabled_merge_iff (w : World) (i : Nat) (ok : Bool) :
    enabled w (Event.merge i ok) = true ↔ i < w.connectors.length ∧ i ∉ w.merged_ids := by
  simp only [enabled, Bool.and_eq_true, decide_eq_true_eq, Bool.not_eq_true',
    List.contains_eq_any_beq, List.any_eq_false, beq_iff_eq]
  constructor
  · rintro ⟨h1, h2⟩
    exact ⟨h1, fun hm => h2 i hm rfl⟩
  · rintro ⟨h1, h2⟩
    exact ⟨h1, fun x hx hix => h2 (hix ▸ hx)⟩

theorem enabled_count_iff (w : World) (i : Nat) :
    enabled w (Event.count i) = true ↔ i ∈ w.merged_ids ∧ i ∉ w.counted_ids := by
  simp only [enabled, Bool.and_eq_true, Bool.not_eq_true', List.contains_eq_any_beq,
    List.any_eq_true, List.any_eq_false, beq_iff_eq]
  constructor
  · rintro ⟨⟨j, hj, hji⟩, h2⟩
    exact ⟨hji ▸ hj, fun hm => h2 i hm rfl⟩
  · rintro ⟨h1, h2⟩
    exact ⟨⟨i, h1, rfl⟩, fun x hx hix => h2 (hix ▸ hx)⟩

/-- An enabled `merge` is handled, and this is the state it leaves. -/
theorem merge_eq {cb : Callback} {s0 : ConnectionPoolManagerInitializer}
    {addresses : List Address} {w : World} (h : Inv cb s0 addresses w) {i : Nat} (ok : Bool)
    (hen : enabled w (Event.merge i ok) = true) :
    step cb w (Event.merge i ok) = some (after_merge s0 addresses w i ok) := by
  obtain ⟨hi, hnm⟩ := (enabled_merge_iff w i ok).1 hen
  have hnf := h.not_finished_of_unmerged hi hnm
  obtain ⟨b1, b2, b3, b4, b5⟩ := h.before hnf
  have haddr : w.self.addr = s0.addr := by rw [h.self_eq]; rfl
  have hc0 := h.conn_at i _ (List.getElem?_eq_getElem hi)
  have hdata : (resolve (connector_of s0 addresses i) ok).data = w.self.addr := by
    rw [haddr]; rfl
  rw [step_merge, if_pos hen, List.getElem?_eq_getElem hi]
  simp only [hc0, on_connect, b4, Bool.false_or, hdata, bne_self_eq_false, Bool.false_eq_true,
    if_false, locked_eq h hnf, Option.map_some', after_merge]

/-- An enabled `count` is handled, and this is the state it leaves. -/
theorem count_step_eq {cb : Callback} {s0 : ConnectionPoolManagerInitializer}
    {addresses : List Address} {w : World} (h : Inv cb s0 addresses w)
    (hN : addresses.length < SIZE_MOD) {i : Nat}
    (hen : enabled w (Event.count i) = true) :
    step cb w (Event.count i) = some (after_count cb s0 addresses w i) := by
  obtain ⟨hm, hnc⟩ := (enabled_count_iff w i).1 hen
  cases hst : step cb w (Event.count i) with
  | some w1 =>
    obtain ⟨_, _, _, _, hw1⟩ := step_count_eq h hN hst
    rw [hw1]
    rfl
  | none =>
    exfalso
    rw [step_count, if_pos hen] at hst
    have hk : w.counted.length < addresses.length := by
      have h1 := nodup_subset_length_lt h.counted_nodup h.counted_sub hm hnc
      have h2 := h.merged_le
      have h3 := h.conn_le
      simp only [World.merged_ids, World.counted_ids, List.length_map] at h1
      omega
    have hnf : ¬ finished addresses w := fun hf => by
      have := hf.2
      omega
    obtain ⟨b1, b2, b3, b4, b5⟩ := h.before hnf
    obtain ⟨c, hc, hci⟩ := List.mem_map.1 hm
    split at hst
    next hfind =>
      rw [List.find?_eq_none] at hfind
      exact hfind c hc (by simp [hci])
    next c1 hfind =>
      have hd : ¬ (w.destroyed = true) := by simp [b4]
      rw [if_neg hd] at hst
      simp at hst

/-- No enabled event is refused: in a state of a run the code meets no null manager and
no deallocated initializer. -/
theorem progress {cb : Callback} {s0 : ConnectionPoolManagerInitializer}
    {addresses : List Address} {w : World} (h : Inv cb s0 addresses w)
    (hN : addresses.length < SIZE_MOD) (e : Event) (hen : enabled w e = true) :
    ∃ w1, step cb w e = some w1 := by
  cases e with
  | start =>
    rw [step_start, if_pos hen]
    simp only [enabled, Bool.not_eq_true', List.isEmpty_eq_false] at hen
    have hlt : w.connectors.length < addresses.length := by
      by_contra hge
      have := h.todo_eq
      rw [List.drop_of_length_le (by omega)] at this
      exact hen this
    have hnf : ¬ finished addresses w := by
      intro hf
      have := h.counted_le
      have := h.merged_le
      have := hf.2
      omega
    obtain ⟨b1, b2, b3, b4, b5⟩ := h.before hnf
    cases htodo : w.todo with
    | nil => exact absurd htodo hen
    | cons a rest =>
      have hd : ¬ (w.destroyed = true) := by simp [b4]
      simp only [if_neg hd]
      exact ⟨_, rfl⟩
  | merge i ok => exact ⟨_, merge_eq h ok hen⟩
  | count i => exact ⟨_, count_step_eq h hN hen⟩
  | drop =>
    rw [step_drop, if_pos hen]
    exact ⟨_, rfl⟩
  | read =>
    rw [step_read, if_pos hen]
    exact ⟨_, rfl⟩

/-- Once the run is finished every connector has been through the locked block, once. -/
theorem Inv.merged_perm {cb : Callback} {s0 : ConnectionPoolManagerInitializer}
    {addresses : List Address} {w : World} (h : Inv cb s0 addresses w)
    (hf : finished addresses w) : w.merged_ids.Perm (List.range addresses.length) := by
  have h1 := h.counted_le
  have h2 := h.conn_le
  have h3 := hf.2
  have hlt : ∀ i ∈ w.merged_ids, i ∈ List.range addresses.length := by
    intro i hi
    have := h.merged_lt i hi
    exact List.mem_range.2 (by omega)
  refine (List.subperm_of_subset h.merged_nodup hlt).perm_of_length_le ?_
  simp only [List.length_range, World.merged_ids, List.length_map]
  omega

/-- The callback has only been invoked in a finished run. -/
theorem Inv.finished_of_call {cb : Callback} {s0 : ConnectionPoolManagerInitializer}
    {addresses : List Address} {w : World} (h : Inv cb s0 addresses w) {inv : Invocation}
    (hinv : inv ∈ w.calls) : finished addresses w := by
  by_contra hnf
  rw [(h.before hnf).1] at hinv
  simp at hinv

/-- The handled connectors, read off their identities and outcomes. -/
theorem Inv.merged_eq_map {cb : Callback} {s0 : ConnectionPoolManagerInitializer}
    {addresses : List Address} {w : World} (h : Inv cb s0 addresses w) (oc : Nat → Bool)
    (hoc : ∀ c ∈ w.merged, c.is_ok = oc c.id) :
    w.merged = w.merged_ids.map (fun i => resolve (connector_of s0 addresses i) (oc i)) := by
  unfold World.merged_ids
  rw [List.map_map]
  conv_lhs => rw [← List.map_id w.merged]
  apply List.map_congr_left
  intro c hc
  obtain ⟨ok, hceq, _⟩ := h.merged_from c hc
  have hok : c.is_ok = ok := by
    rw [hceq, resolve_is_ok]
  simp only [id, Function.comp]
  rw [← hoc c hc, hok]
  exact hceq

theorem pools_of_map (s0 : ConnectionPoolManagerInitializer) (addresses : List Address)
    (oc : Nat → Bool) (l : List Nat) :
    pools_of (l.map (fun i => resolve (connector_of s0 addresses i) (oc i))) =
      (l.filter oc).map (fun i => { connector := i, address := addresses.getD i 0 }) := by
  unfold pools_of
  rw [List.filter_map, List.map_map]
  have : ((fun c : ConnectionPoolConnector => c.is_ok) ∘
      fun i => resolve (connector_of s0 addresses i) (oc i)) = oc := by
    funext i
    simp [resolve_is_ok]
  rw [this]
  rfl

theorem failed_of_map (s0 : ConnectionPoolManagerInitializer) (addresses : List Address)
    (oc : Nat → Bool) (l : List Nat) :
    failed_of (l.map (fun i => resolve (connector_of s0 addresses i) (oc i))) =
      (l.filter (fun i => !oc i)).map
        (fun i => resolve (connector_of s0 addresses i) false) := by
  unfold failed_of
  rw [List.filter_map]
  have : ((fun c : ConnectionPoolConnector => !c.is_ok) ∘
      fun i => resolve (connector_of s0 addresses i) (oc i)) = fun i => !oc i := by
    funext i
    simp [resolve_is_ok]
  rw [this]
  apply List.map_congr_left
  intro i hi
  have : oc i = false := by
    have := (List.mem_filter.1 hi).2
    simpa using this
  rw [this]

theorem Inv.failures_eq {cb : Callback} {s0 : ConnectionPoolManagerInitializer}
    {addresses : List Address} {w : World} (h : Inv cb s0 addresses w) :
    failures w.self = failed_of w.merged := by
  unfold failures
  rw [h.self_eq]
  rfl

/-- What an event adds to the list of handled connectors. -/
theorem step_merged {cb : Callback} {s0 : ConnectionPoolManagerInitializer}
    {addresses : List Address} {w w1 : World} (h : Inv cb s0 addresses w)
    (hN : addresses.length < SIZE_MOD) {e : Event} (hs : step cb w e = some w1) :
    w1.merged = w.merged ++ handled_by s0 addresses e := by
  cases e with
  | start =>
    rw [step_start] at hs
    split at hs
    · split at hs
      · simp at hs
      · split at hs
        · simp at hs
        · simp only [Option.some.injEq] at hs
          subst hs
          simp [initialize_connect, handled_by]
    · simp at hs
  | merge i ok =>
    have hen : enabled w (Event.merge i ok) = true := by
      by_contra hne
      rw [step_merge, if_neg hne] at hs
      simp at hs
    rw [merge_eq h ok hen] at hs
    simp only [Option.some.injEq] at hs
    subst hs
    rfl
  | count i =>
    have hen : enabled w (Event.count i) = true := by
      by_contra hne
      rw [step_count, if_neg hne] at hs
      simp at hs
    rw [count_step_eq h hN hen] at hs
    simp only [Option.some.injEq] at hs
    subst hs
    unfold after_count
    split <;> simp [handled_by]
  | drop =>
    rw [step_drop] at hs
    split at hs
    · simp only [Option.some.injEq] at hs
      subst hs
      simp [dec_ref, handled_by]
    · simp at hs
  | read =>
    rw [step_read] at hs
    split at hs
    · simp only [Option.some.injEq] at hs
      subst hs
      simp [handled_by]
    · simp at hs

theorem run_failures_prefix {cb : Callback} {s0 : ConnectionPoolManagerInitializer}
    {addresses : List Address} (hN : addresses.length < SIZE_MOD) (events : List Event) :
    ∀ {w w1 : World}, Inv cb s0 addresses w → run cb w events = some w1 →
      failures w.self <+: failures w1.self := by
  induction events with
  | nil =>
    intro w w1 h hr
    simp only [run, Option.some.injEq] at hr
    subst hr
    exact List.prefix_refl _
  | cons e es ih =>
    intro w w1 h hr
    simp only [run] at hr
    cases hst : step cb w e with
    | none => simp [hst] at hr
    | some w2 =>
      simp only [hst, Option.some_bind] at hr
      have h2 := inv_step h hN hst
      refine List.IsPrefix.trans ?_ (ih h2 hr)
      rw [h.failures_eq, h2.failures_eq, step_merged h hN hst]
      unfold failed_of
      rw [List.filter_append]
      exact List.prefix_append _ _

theorem configure_append (s : ConnectionPoolManagerInitializer) (bs : List BuilderCall)
    (b : BuilderCall) : configure s (bs ++ [b]) = apply_builder (configure s bs) b := by
  unfold configure
  rw [List.foldl_append]
  rfl

theorem last_write_append {α : Type} (pick : BuilderCall → Option α) (bs : List BuilderCall)
    (b : BuilderCall) (d : α) :
    last_write pick (bs ++ [b]) d = (pick b).getD (last_write pick bs d) := by
  unfold last_write
  rw [List.filterMap_append]
  cases hb : pick b with
  | none => simp [List.filterMap, hb]
  | some a => simp [List.filterMap, hb]

/-- The configuration of the object after the builder calls. -/
theorem configure_eq (s : ConnectionPoolManagerInitializer) (bs : List BuilderCall) :
    configure s bs =
      { s with
        keyspace_ := last_write pick_keyspace bs s.keyspace_
        listener_ := last_write pick_listener bs s.listener_
        metrics_ := last_write pick_metrics bs s.metrics_
        settings_ := last_write pick_settings bs s.settings_ } := by
  induction bs using List.reverseRecOn with
  | nil => rfl
  | append_singleton bs b ih =>
    rw [configure_append, ih]
    simp only [last_write_append]
    cases b <;> rfl

theorem initialize_loop_frame (addresses : List Address) :
    ∀ w : World, (initialize_loop w addresses).self = w.self ∧
      (initialize_loop w addresses).heap = w.heap ∧
      (initialize_loop w addresses).calls = w.calls := by
  induction addresses with
  | nil => intro w; exact ⟨rfl, rfl, rfl⟩
  | cons a rest ih =>
    intro w
    exact ih (initialize_connect { w with todo := rest } a)

theorem Inv.remaining_eq {cb : Callback} {s0 : ConnectionPoolManagerInitializer}
    {addresses : List Address} {w : World} (h : Inv cb s0 addresses w) :
    w.self.remaining_ = addresses.length - w.counted.length := by
  rw [h.self_eq]
  rfl

theorem Inv.counted_le_length {cb : Callback} {s0 : ConnectionPoolManagerInitializer}
    {addresses : List Address} {w : World} (h : Inv cb s0 addresses w) :
    w.counted.length ≤ addresses.length := by
  have := h.counted_le
  have := h.merged_le
  have := h.conn_le
  omega

/-- An event that is not the `fetch_sub` of a handler invokes no callback and leaves the
counter alone. -/
theorem step_other {cb : Callback} {s0 : ConnectionPoolManagerInitializer}
    {addresses : List Address} {w w1 : World} (h : Inv cb s0 addresses w)
    {e : Event} (hs : step cb w e = some w1) (hne : ∀ i, e ≠ Event.count i) :
    w1.calls = w.calls ∧ w1.counted = w.counted ∧ w1.self.remaining_ = w.self.remaining_ ∧
    w1.self.ref_count - w1.caller_refs = w.self.ref_count - w.caller_refs := by
  cases e with
  | start =>
    rw [step_start] at hs
    split at hs
    · split at hs
      · simp at hs
      · split at hs
        · simp at hs
        · simp only [Option.some.injEq] at hs
          subst hs
          simp [initialize_connect]
    · simp at hs
  | merge i ok =>
    have hen : enabled w (Event.merge i ok) = true := by
      by_contra hne
      rw [step_merge, if_neg hne] at hs
      simp at hs
    rw [merge_eq h ok hen] at hs
    simp only [Option.some.injEq] at hs
    subst hs
    simp [after_merge]
  | count i => exact absurd rfl (hne i)
  | drop =>
    rw [step_drop] at hs
    split at hs
    next hen =>
      simp only [enabled, decide_eq_true_eq] at hen
      simp only [Option.some.injEq] at hs
      subst hs
      simp only [dec_ref, true_and]
      omega
    · simp at hs
  | read =>
    rw [step_read] at hs
    split at hs
    · simp only [Option.some.injEq] at hs
      subst hs
      simp
    · simp at hs

/-- The `fetch_sub` of a handler: the counter goes down by one, and the callback is
invoked exactly when it goes from one to zero. -/
theorem step_count_effect {cb : Callback} {s0 : ConnectionPoolManagerInitializer}
    {addresses : List Address} {w w1 : World} (h : Inv cb s0 addresses w)
    (hN : addresses.length < SIZE_MOD) {i : Nat}
    (hs : step cb w (Event.count i) = some w1) :
    1 ≤ w.self.remaining_ ∧ w1.self.remaining_ + 1 = w.self.remaining_ ∧
    w1.counted = w.counted ++ [(i, w.self.remaining_)] ∧
    (w.self.remaining_ = 1 → w1.calls = w.calls ++ [last_invocation s0 w i] ∧
      w1.self.ref_count - w1.caller_refs = w.self.ref_count - w.caller_refs - 1) ∧
    (w.self.remaining_ ≠ 1 → w1.calls = w.calls ∧
      w1.self.ref_count - w1.caller_refs = w.self.ref_count - w.caller_refs) := by
  obtain ⟨hm, hnc, hnf, hk, hw1⟩ := step_count_eq h hN hs
  obtain ⟨b1, b2, b3, b4, b5⟩ := h.before hnf
  have hrem := h.remaining_eq
  by_cases hlast : w.counted.length + 1 = addresses.length
  · rw [if_pos hlast] at hw1
    have h1 : w.self.remaining_ = 1 := by omega
    subst hw1
    refine ⟨by omega, ?_, ?_, ?_, ?_⟩
    · simp [self_of, h1]
    · simp [h1]
    · intro _
      simp only [b1, List.nil_append, self_of, b5, true_and]
      omega
    · intro hne
      exact absurd h1 hne
  · rw [if_neg hlast] at hw1
    have h1 : w.self.remaining_ ≠ 1 := by omega
    subst hw1
    refine ⟨by omega, ?_, ?_, ?_, ?_⟩
    · simp only [self_of]
      omega
    · simp [hrem]
    · intro h2
      exact absurd h2 h1
    · intro _
      simp only [self_of, b5, true_and]

theorem initialize_loop_connectors (l : List Address) :
    ∀ w : World, (initialize_loop w l).connectors =
      w.connectors ++ (List.range l.length).map (fun j =>
        { id := w.connectors.length + j, manager := w.self.manager_, address := l.getD j 0,
          data := w.self.addr, outcome := Outcome.pending }) := by
  induction l with
  | nil => intro w; simp [initialize_loop]
  | cons a rest ih =>
    intro w
    show (initialize_loop (initialize_connect { w with todo := rest } a) rest).connectors = _
    rw [ih]
    simp only [initialize_connect, List.length_append, List.length_singleton, List.length_cons,
      List.range_succ_eq_map, List.map_cons, List.map_map, List.append_assoc,
      List.singleton_append, Nat.add_zero, List.getD_cons_zero]
    congr 2
    apply List.map_congr_left
    intro j _
    simp only [Function.comp, List.getD_cons_succ, Nat.succ_eq_add_one]
    congr 1
    simp only [List.length_nil]
    omega

/-- The method `initialize`, when no connector resolves before it returns, is the first
lines followed by one `start` event for each address. -/
theorem run_starts (cb : Callback) (l : List Address) :
    ∀ w : World, w.destroyed = false → w.todo = l →
      run cb w (List.replicate l.length Event.start) = some (initialize_loop w l) := by
  induction l with
  | nil => intro w _ _; rfl
  | cons a rest ih =>
    intro w hd ht
    simp only [List.length_cons, List.replicate_succ, run]
    have hen : enabled w Event.start = true := by simp [enabled, ht]
    have hnd : ¬ (w.destroyed = true) := by simp [hd]
    rw [step_start, if_pos hen, ht]
    simp only [if_neg hnd, Option.some_bind]
    exact ih (initialize_connect { w with todo := rest } a) hd rfl

theorem configure_addr (s : ConnectionPoolManagerInitializer) (bs : List BuilderCall) :
    (configure s bs).addr = s.addr := by
  rw [configure_eq]

theorem setup_addr (su : Setup) : su.self.addr = su.addr := by
  unfold Setup.self
  rw [configure_addr]
  rfl

theorem invoke_callback_guard (cb : Callback) (w : World) (c : ConnectionPoolConnector) :
    (invoke_callback cb w c).self.ref_count = w.self.ref_count ∧
    (invoke_callback cb w c).destroyed = w.destroyed ∧
    (invoke_callback cb w c).caller_refs = w.caller_refs := by
  unfold invoke_callback
  by_cases hcb : cb w.self w.heap <;> simp [hcb]

theorem close_unreleased_guard (w : World) :
    (close_unreleased w).self = w.self ∧ (close_unreleased w).destroyed = w.destroyed ∧
    (close_unreleased w).caller_refs = w.caller_refs := by
  unfold close_unreleased
  split
  · exact ⟨rfl, rfl, rfl⟩
  · split <;> exact ⟨rfl, rfl, rfl⟩

/-- The handler that finds the counter at one runs the last branch. -/
theorem step_count_last {cb : Callback} {w w1 : World} {i : Nat}
    (hs : step cb w (Event.count i) = some w1) (hrem : w.self.remaining_ = 1) :
    ∃ c, c ∈ w.merged ∧ c.id = i ∧
      w1 = dec_ref (close_unreleased (invoke_callback cb
        { w with
          self := { w.self with remaining_ := 0 }
          counted := w.counted ++ [(i, 1)] } c)) := by
  rw [step_count] at hs
  split at hs
  · split at hs
    · simp at hs
    next c hfind =>
      have hcid : c.id = i := by
        have := List.find?_some hfind
        simpa using this
      refine ⟨c, List.mem_of_find?_eq_some hfind, hcid, ?_⟩
      split at hs
      · simp at hs
      · simp only [Option.some.injEq] at hs
        rw [← hs]
        simp [handle_connect_count, fetch_sub_result, hrem, SIZE_MOD, handle_connect_last]
  · simp at hs

/-- For one address or more the self-reference is paired: once every handler has passed
`fetch_sub`, the reference count is back at the number of references of the caller. -/
theorem guard_released_after_last (cb : Callback) (su : Setup) (addresses : List Address)
    (events : List Event) (w : World) (hpos : 1 ≤ addresses.length)
    (hN : addresses.length < SIZE_MOD) (hr : exec cb su addresses events = some w)
    (hall : w.counted.length = addresses.length) :
    w.self.ref_count - w.caller_refs = 0 := by
  have h := inv_exec hN hr
  obtain ⟨inv, h1, h2, h3, h4, h5, h6, h7, h8, h9⟩ := h.after ⟨hpos, hall⟩
  omega

theorem interleavings_two {α : Type} (a1 a2 b1 b2 : α) :
    interleavings [a1, a2] [b1, b2] =
      [[a1, a2, b1, b2], [a1, b1, a2, b2], [a1, b1, b2, a2],
       [b1, a1, a2, b2], [b1, a1, b2, a2], [b1, b2, a1, a2]] := by
  simp [interleavings]

theorem run_cons {cb : Callback} {w w1 : World} {e : Event} (es : List Event)
    (hs : step cb w e = some w1) : run cb w (e :: es) = run cb w1 es := by
  simp [run, hs]

/-- The locked block of a handler, seen from outside. -/
theorem merge_ghost {cb : Callback} {s0 : ConnectionPoolManagerInitializer}
    {addresses : List Address} {w : World} (h : Inv cb s0 addresses w)
    (hN : addresses.length < SIZE_MOD) {i : Nat} (ok : Bool)
    (hi : i < w.connectors.length) (hnm : i ∉ w.merged_ids) :
    ∃ w1, step cb w (Event.merge i ok) = some w1 ∧ Inv cb s0 addresses w1 ∧
      w1.merged = w.merged ++ [resolve (connector_of s0 addresses i) ok] ∧
      w1.merged_ids = w.merged_ids ++ [i] ∧ w1.counted = w.counted ∧
      w1.counted_ids = w.counted_ids ∧ w1.connectors = w.connectors ∧
      w1.self.remaining_ = w.self.remaining_ := by
  have hen := (enabled_merge_iff w i ok).2 ⟨hi, hnm⟩
  have hs := merge_eq h ok hen
  refine ⟨_, hs, inv_step h hN hs, rfl, ?_, rfl, rfl, rfl, rfl⟩
  simp [World.merged_ids, after_merge, resolve, connector_of]

/-- The rest of a handler, seen from outside. -/
theorem count_ghost {cb : Callback} {s0 : ConnectionPoolManagerInitializer}
    {addresses : List Address} {w : World} (h : Inv cb s0 addresses w)
    (hN : addresses.length < SIZE_MOD) {i : Nat}
    (hm : i ∈ w.merged_ids) (hnc : i ∉ w.counted_ids) :
    ∃ w1, step cb w (Event.count i) = some w1 ∧ Inv cb s0 addresses w1 ∧
      w1.merged = w.merged ∧ w1.merged_ids = w.merged_ids ∧
      w1.counted = w.counted ++ [(i, w.self.remaining_)] ∧
      w1.counted_ids = w.counted_ids ++ [i] ∧ w1.connectors = w.connectors ∧
      w1.self.remaining_ + 1 = w.self.remaining_ := by
  have hen := (enabled_count_iff w i).2 ⟨hm, hnc⟩
  have hs := count_step_eq h hN hen
  obtain ⟨_, e2, e3, _, _⟩ := step_count_effect h hN hs
  have hmg := step_merged h hN hs
  simp only [handled_by, List.append_nil] at hmg
  have hother : (after_count cb s0 addresses w i).connectors = w.connectors := by
    unfold after_count
    split <;> rfl
  refine ⟨_, hs, inv_step h hN hs, hmg, ?_, e3, ?_, hother, e2⟩
  · simp [World.merged_ids, hmg]
  · simp [World.counted_ids, e3]

/-- The three interleavings in which the handler of `a` runs its locked block first. -/
theorem race_first {cb : Callback} {s0 : ConnectionPoolManagerInitializer}
    {addresses : List Address} {w : World} (h : Inv cb s0 addresses w)
    (hN : addresses.length < SIZE_MOD) {a b : Nat} (oka okb : Bool) (hab : a ≠ b)
    (ha : a < w.connectors.length) (hb : b < w.connectors.length)
    (hma : a ∉ w.merged_ids) (hmb : b ∉ w.merged_ids) (hrem : w.self.remaining_ = 2)
    {sched : List Event}
    (hs : sched = [Event.merge a oka, Event.count a, Event.merge b okb, Event.count b] ∨
      sched = [Event.merge a oka, Event.merge b okb, Event.count a, Event.count b] ∨
      sched = [Event.merge a oka, Event.merge b okb, Event.count b, Event.count a]) :
    ∃ w1 x y, run cb w sched = some w1 ∧ Inv cb s0 addresses w1 ∧
      w1.counted = w.counted ++ [(x, 2), (y, 1)] ∧ ((x = a ∧ y = b) ∨ (x = b ∧ y = a)) ∧
      resolve (connector_of s0 addresses a) oka ∈ w1.merged ∧
      resolve (connector_of s0 addresses b) okb ∈ w1.merged := by
  have hca : a ∉ w.counted_ids := fun hc => hma (h.counted_sub a hc)
  have hcb : b ∉ w.counted_ids := fun hc => hmb (h.counted_sub b hc)
  obtain ⟨w1, s1, i1, m1, mi1, c1, ci1, n1, r1⟩ := merge_ghost h hN oka ha hma
  rcases hs with rfl | rfl | rfl
  · obtain ⟨w2, s2, i2, m2, mi2, c2, ci2, n2, r2⟩ := count_ghost i1 hN
      (show a ∈ w1.merged_ids by rw [mi1]; simp) (by rw [ci1]; exact hca)
    obtain ⟨w3, s3, i3, m3, mi3, c3, ci3, n3, r3⟩ := merge_ghost i2 hN okb
      (show b < w2.connectors.length by rw [n2, n1]; exact hb)
      (by rw [mi2, mi1]; simp [hmb, Ne.symm hab])
    obtain ⟨w4, s4, i4, m4, mi4, c4, ci4, n4, r4⟩ := count_ghost i3 hN
      (show b ∈ w3.merged_ids by rw [mi3]; simp)
      (by rw [ci3, ci2, ci1]; simp [hcb, Ne.symm hab])
    refine ⟨w4, a, b, ?_, i4, ?_, Or.inl ⟨rfl, rfl⟩, ?_, ?_⟩
    · rw [run_cons _ s1, run_cons _ s2, run_cons _ s3, run_cons _ s4]; rfl
    · rw [c4, c3, c2, c1, r3, r1, hrem]
      have : w2.self.remaining_ = 1 := by omega
      rw [this]
      simp
    · rw [m4, m3, m2, m1]; simp
    · rw [m4, m3]; simp
  · obtain ⟨w2, s2, i2, m2, mi2, c2, ci2, n2, r2⟩ := merge_ghost i1 hN okb
      (show b < w1.connectors.length by rw [n1]; exact hb)
      (by rw [mi1]; simp [hmb, Ne.symm hab])
    obtain ⟨w3, s3, i3, m3, mi3, c3, ci3, n3, r3⟩ := count_ghost i2 hN
      (show a ∈ w2.merged_ids by rw [mi2, mi1]; simp)
      (by rw [ci2, ci1]; exact hca)
    obtain ⟨w4, s4, i4, m4, mi4, c4, ci4, n4, r4⟩ := count_ghost i3 hN
      (show b ∈ w3.merged_ids by rw [mi3, mi2]; simp)
      (by rw [ci3, ci2, ci1]; simp [hcb, Ne.symm hab])
    refine ⟨w4, a, b, ?_, i4, ?_, Or.inl ⟨rfl, rfl⟩, ?_, ?_⟩
    · rw [run_cons _ s1, run_cons _ s2, run_cons _ s3, run_cons _ s4]; rfl
    · rw [c4, c3, c2, c1, r2, r1, hrem]
      have : w3.self.remaining_ = 1 := by omega
      rw [this]
      simp
    · rw [m4, m3, m2, m1]; simp
    · rw [m4, m3, m2]; simp
  · obtain ⟨w2, s2, i2, m2, mi2, c2, ci2, n2, r2⟩ := merge_ghost i1 hN okb
      (show b < w1.connectors.length by rw [n1]; exact hb)
      (by rw [mi1]; simp [hmb, Ne.symm hab])
    obtain ⟨w3, s3, i3, m3, mi3, c3, ci3, n3, r3⟩ := count_ghost i2 hN
      (show b ∈ w2.merged_ids by rw [mi2]; simp)
      (by rw [ci2, ci1]; exact hcb)
    obtain ⟨w4, s4, i4, m4, mi4, c4, ci4, n4, r4⟩ := count_ghost i3 hN
      (show a ∈ w3.merged_ids by rw [mi3, mi2, mi1]; simp)
      (by rw [ci3, ci2, ci1]; simp [hca, hab])
    refine ⟨w4, b, a, ?_, i4, ?_, Or.inr ⟨rfl, rfl⟩, ?_, ?_⟩
    · rw [run_cons _ s1, run_cons _ s2, run_cons _ s3, run_cons _ s4]; rfl
    · rw [c4, c3, c2, c1, r2, r1, hrem]
      have : w3.self.remaining_ = 1 := by omega
      rw [this]
      simp
    · rw [m4, m3, m2, m1]; simp
    · rw [m4, m3, m2]; simp

theorem run_append (cb : Callback) (es1 es2 : List Event) :
    ∀ w : World, run cb w (es1 ++ es2) = (run cb w es1).bind (fun w1 => run cb w1 es2) := by
  induction es1 with
  | nil => intro w; rfl
  | cons e es ih =>
    intro w
    simp only [List.cons_append, run]
    cases step cb w e with
    | none => rfl
    | some w1 => simp only [Option.some_bind]; exact ih w1

theorem initialize_loop_ghost (addresses : List Address) :
    ∀ w : World, (initialize_loop w addresses).merged = w.merged ∧
      (initialize_loop w addresses).counted = w.counted := by
  induction addresses with
  | nil => intro w; exact ⟨rfl, rfl⟩
  | cons a rest ih =>
    intro w
    exact ih (initialize_connect { w with todo := rest } a)

/-- Connectors that are still to be handled can resolve one after the other, in any
order and with any outcomes. -/
theorem run_completions {cb : Callback} {s0 : ConnectionPoolManagerInitializer}
    {addresses : List Address} (hN : addresses.length < SIZE_MOD) (oc : Nat → Bool)
    (l : List Nat) :
    ∀ w : World, Inv cb s0 addresses w → l.Nodup →
      (∀ i ∈ l, i < w.connectors.length ∧ i ∉ w.merged_ids) →
      ∃ w1, run cb w (completions oc l) = some w1 ∧ Inv cb s0 addresses w1 ∧
        w1.counted.length = w.counted.length + l.length := by
  induction l with
  | nil =>
    intro w h _ _
    exact ⟨w, rfl, h, rfl⟩
  | cons i rest ih =>
    intro w h hnd hall
    obtain ⟨hi, hnm⟩ := hall i (List.mem_cons_self i rest)
    have hnc : i ∉ w.counted_ids := fun hc => hnm (h.counted_sub i hc)
    obtain ⟨w1, s1, i1, m1, mi1, c1, ci1, n1, r1⟩ := merge_ghost h hN (oc i) hi hnm
    obtain ⟨w2, s2, i2, m2, mi2, c2, ci2, n2, r2⟩ := count_ghost i1 hN
      (show i ∈ w1.merged_ids by rw [mi1]; simp) (by rw [ci1]; exact hnc)
    have hrest : ∀ j ∈ rest, j < w2.connectors.length ∧ j ∉ w2.merged_ids := by
      intro j hj
      obtain ⟨hj1, hj2⟩ := hall j (List.mem_cons_of_mem i hj)
      refine ⟨by rw [n2, n1]; exact hj1, ?_⟩
      rw [mi2, mi1]
      have hji : j ≠ i := fun hji => (List.nodup_cons.1 hnd).1 (hji ▸ hj)
      simp [hj2, hji]
    obtain ⟨w3, s3, i3, l3⟩ := ih w2 i2 (List.nodup_cons.1 hnd).2 hrest
    refine ⟨w3, ?_, i3, ?_⟩
    · show run cb w (Event.merge i (oc i) :: Event.count i :: completions oc rest) = some w3
      rw [run_cons _ s1, run_cons _ s2]
      exact s3
    · rw [l3, c2, c1]
      simp only [List.length_append, List.length_singleton, List.length_cons, List.length_nil]
      omega

/-- After `initialize` has started all connectors they can resolve in any order, with
any outcomes, and the run gets to the end. -/
theorem exec_completions (cb : Callback) (su : Setup) (addresses : List Address)
    (hN : addresses.length < SIZE_MOD) (oc : Nat → Bool) (order : List Nat)
    (hp : order.Perm (List.range addresses.length)) :
    ∃ w1, exec cb su addresses
        (List.replicate addresses.length Event.start ++ completions oc order) = some w1 ∧
      Inv cb su.self addresses w1 ∧ w1.counted.length = addresses.length := by
  have hstart : exec cb su addresses (List.replicate addresses.length Event.start) =
      some (initialize_addresses (World.fresh su.self su.refs) addresses) :=
    run_starts cb addresses _ rfl rfl
  have h0 := inv_exec hN hstart
  have hconn : (initialize_addresses (World.fresh su.self su.refs) addresses).connectors.length =
      addresses.length := by
    unfold initialize_addresses
    rw [initialize_loop_connectors]
    simp [initialize_begin, inc_ref, World.fresh]
  obtain ⟨g1, g2⟩ := initialize_loop_ghost addresses
    (initialize_begin (World.fresh su.self su.refs) addresses)
  have hmerged : (initialize_addresses (World.fresh su.self su.refs) addresses).merged = [] := g1
  have hcounted : (initialize_addresses (World.fresh su.self su.refs) addresses).counted = [] := g2
  have hall : ∀ i ∈ order,
      i < (initialize_addresses (World.fresh su.self su.refs) addresses).connectors.length ∧
      i ∉ (initialize_addresses (World.fresh su.self su.refs) addresses).merged_ids := by
    intro i hi
    refine ⟨?_, ?_⟩
    · rw [hconn]
      exact List.mem_range.1 (hp.mem_iff.1 hi)
    · simp [World.merged_ids, hmerged]
  obtain ⟨w1, r1, r2, r3⟩ := run_completions hN oc order _ h0
    (hp.nodup_iff.2 (List.nodup_range _)) hall
  refine ⟨w1, ?_, r2, ?_⟩
  · unfold exec at hstart ⊢
    rw [run_append, hstart]
    exact r1
  · rw [r3, hcounted, hp.length_eq]
    simp

theorem invoke_callback_visible (cb : Callback) (c : ConnectionPoolConnector) (w w2 : World)
    (h : w.visible = w2.visible) :
    (invoke_callback cb w c).visible = (invoke_callback cb w2 c).visible := by
  rcases w with ⟨self, de, hp, td, cn, mg, ct, cl, cr⟩
  rcases w2 with ⟨self2, de2, hp2, td2, cn2, mg2, ct2, cl2, cr2⟩
  simp only [World.visible, Prod.mk.injEq] at h
  obtain ⟨rfl, rfl, rfl, rfl, rfl⟩ := h
  unfold invoke_callback
  by_cases hcb : cb self hp = true
  · rw [if_pos hcb, if_pos hcb]
    rfl
  · rw [if_neg hcb, if_neg hcb]
    rfl

theorem close_unreleased_visible (w w2 : World) (h : w.visible = w2.visible) :
    (close_unreleased w).visible = (close_unreleased w2).visible := by
  rcases w with ⟨self, de, hp, td, cn, mg, ct, cl, cr⟩
  rcases w2 with ⟨self2, de2, hp2, td2, cn2, mg2, ct2, cl2, cr2⟩
  simp only [World.visible, Prod.mk.injEq] at h
  obtain ⟨rfl, rfl, rfl, rfl, rfl⟩ := h
  unfold close_unreleased
  cases hm : self.manager_ with
  | none => simp only [hm, World.visible]
  | some p =>
    simp only [hm]
    cases hh : heap_call hp p (fun m => m.close) with
    | none => simp only [hh, World.visible]
    | some heap1 => simp only [hh, World.visible]

theorem dec_ref_visible (w w2 : World) (h : w.visible = w2.visible) :
    (dec_ref w).visible = (dec_ref w2).visible := by
  rcases w with ⟨self, de, hp, td, cn, mg, ct, cl, cr⟩
  rcases w2 with ⟨self2, de2, hp2, td2, cn2, mg2, ct2, cl2, cr2⟩
  simp only [World.visible, Prod.mk.injEq] at h
  obtain ⟨rfl, rfl, rfl, rfl, rfl⟩ := h
  rfl

/-- The rest of `handle_connect` neither reads nor writes the logs of handled
connectors. -/
theorem handle_connect_count_visible (cb : Callback) (c : ConnectionPoolConnector)
    (w w2 : World) (h : w.visible = w2.visible) :
    (handle_connect_count cb w c).visible = (handle_connect_count cb w2 c).visible := by
  have hself : w.self = w2.self := by
    simp only [World.visible, Prod.mk.injEq] at h
    exact h.1
  have hf : fetch_sub_result w = fetch_sub_result w2 := by
    unfold fetch_sub_result
    rw [hself]
  have hv : ({ w with self := { w.self with remaining_ := fetch_sub_result w } } : World).visible =
      ({ w2 with self := { w2.self with remaining_ := fetch_sub_result w2 } } : World).visible := by
    simp only [World.visible, Prod.mk.injEq] at h ⊢
    obtain ⟨h1, h2, h3, h4, h5⟩ := h
    rw [hf, h1]
    exact ⟨rfl, h2, h3, h4, h5⟩
  unfold handle_connect_count
  by_cases h0 : fetch_sub_result w2 = 0
  · rw [if_pos (hf.trans h0), if_pos h0]
    unfold handle_connect_last
    exact dec_ref_visible _ _ (close_unreleased_visible _ _ (invoke_callback_visible cb c _ _ hv))
  · rw [if_neg (fun hh => h0 (hf.symm.trans hh)), if_neg h0]
    exact hv

/-- A connector that resolves and whose handler runs to the end at once: the two events
together do to the initializer, the managers, the callback and the references what the
method `handle_connect` does, and the two logs record the connector. -/
theorem complete_is_handle_connect {cb : Callback} {s0 : ConnectionPoolManagerInitializer}
    {addresses : List Address} {w w1 : World} (h : Inv cb s0 addresses w)
    (hN : addresses.length < SIZE_MOD) {i : Nat} {ok : Bool}
    (hr : run cb w (complete i ok) = some w1) :
    ∃ w2, handle_connect cb w (resolve (connector_of s0 addresses i) ok) = some w2 ∧
      w1.visible = w2.visible ∧
      w1.merged = w.merged ++ [resolve (connector_of s0 addresses i) ok] ∧
      w1.counted = w.counted ++ [(i, w.self.remaining_)] := by
  have hen : enabled w (Event.merge i ok) = true := by
    by_contra hne
    simp [complete, run, step_merge, hne] at hr
  obtain ⟨hi, hnm⟩ := (enabled_merge_iff w i ok).1 hen
  have hnf := h.not_finished_of_unmerged hi hnm
  have hs1 := merge_eq h ok hen
  have h1 := inv_step h hN hs1
  rw [complete, run_cons _ hs1] at hr
  have hen2 : enabled (after_merge s0 addresses w i ok) (Event.count i) = true := by
    by_contra hne
    simp [run, step_count, hne] at hr
  have hs2 := count_step_eq h1 hN hen2
  rw [run_cons _ hs2] at hr
  simp only [run, Option.some.injEq] at hr
  obtain ⟨hm2, hnc2⟩ := (enabled_count_iff _ i).1 hen2
  have hk : (after_merge s0 addresses w i ok).counted.length < addresses.length := by
    have := nodup_subset_length_lt h1.counted_nodup h1.counted_sub hm2 hnc2
    have := h1.merged_le
    have := h1.conn_le
    simp only [World.merged_ids, World.counted_ids, List.length_map] at *
    omega
  have hnf1 : ¬ finished addresses (after_merge s0 addresses w i ok) := fun hf => by
    have := hf.2
    omega
  have hce := count_eq h1 hnf1 hk hN i (resolve (connector_of s0 addresses i) ok)
  have hac : after_count cb s0 addresses (after_merge s0 addresses w i ok) i =
      handle_connect_count cb
        { after_merge s0 addresses w i ok with
          counted := (after_merge s0 addresses w i ok).counted ++
            [(i, (after_merge s0 addresses w i ok).self.remaining_)] }
        (resolve (connector_of s0 addresses i) ok) := by
    rw [hce]
    rfl
  obtain ⟨_, _, e3, _, _⟩ := step_count_effect h1 hN hs2
  have hmg := step_merged h1 hN hs2
  refine ⟨handle_connect_count cb
    { w with
      self := { w.self with
        failures_ := failed_of (w.merged ++ [resolve (connector_of s0 addresses i) ok]) }
      heap := [manager_of s0
        (pools_of (w.merged ++ [resolve (connector_of s0 addresses i) ok])) 0] }
    (resolve (connector_of s0 addresses i) ok), ?_, ?_, ?_, ?_⟩
  · unfold handle_connect
    rw [locked_eq h hnf]
    rfl
  · rw [← hr, hac]
    exact handle_connect_count_visible cb _ _ _ rfl
  · rw [← hr, hmg]
    simp [handled_by, after_merge]
  · rw [← hr, e3]
    rfl

/-! ## The claims -/

/-- C1: for a non-empty address list, in every state reached by any interleaving of the
loop of `initialize` with the handlers of the connectors, whatever their outcomes: every
enabled event is handled; at most N handlers have passed `fetch_sub`; while fewer than N
have, the callback has not been invoked; once N have, it has been invoked exactly once,
by the handler that was the N-th at `fetch_sub` (which read the value 1), and the
initializer handed to the callback already holds that handler's connector: its pool in
the manager if it is ok, the connector in the failure list if not. -/
theorem callback_exactly_once (cb : Callback) (su : Setup) (addresses : List Address)
    (events : List Event) (w : World)
    (hpos : 1 ≤ addresses.length) (hN : addresses.length < SIZE_MOD)
    (hr : exec cb su addresses events = some w) :
    (∀ e, enabled w e = true → ∃ w1, step cb w e = some w1) ∧
    w.counted.length ≤ addresses.length ∧
    (w.counted.length < addresses.length → w.calls = []) ∧
    (w.counted.length = addresses.length →
      ∃ inv c m, w.calls = [inv] ∧ w.counted.getLast? = some (inv.handler, 1) ∧
        c ∈ w.merged ∧ c.id = inv.handler ∧ inv.self.manager_ = some 0 ∧ inv.heap = [m] ∧
        (if c.is_ok then c.release_pool ∈ m.added else c ∈ failures inv.self)) ∧
    (∀ (oc : Nat → Bool) (order : List Nat), order.Perm (List.range addresses.length) →
      ∃ w1 inv, exec cb su addresses
          (List.replicate addresses.length Event.start ++ completions oc order) = some w1 ∧
        w1.counted.length = addresses.length ∧ w1.calls = [inv]) := by
  have h := inv_exec hN hr
  refine ⟨fun e he => progress h hN e he, ?_, ?_, ?_, ?_⟩
  rotate_right
  · intro oc order hp
    obtain ⟨w1, r1, r2, r3⟩ := exec_completions cb su addresses hN oc order hp
    obtain ⟨inv, h1, _⟩ := r2.after ⟨hpos, r3⟩
    exact ⟨w1, inv, r1, r3, h1⟩
  · have := h.counted_le
    have := h.merged_le
    have := h.conn_le
    omega
  · intro hlt
    have hnf : ¬ finished addresses w := fun hf => by
      have := hf.2
      omega
    exact (h.before hnf).1
  · intro heq
    obtain ⟨inv, h1, h2, h3, h4, h5, h6, h7, h8, h9⟩ := h.after ⟨hpos, heq⟩
    have hmem : inv.handler ∈ w.merged_ids := by
      apply h.counted_sub
      have := List.mem_of_mem_getLast? (Option.mem_def.2 h2)
      exact List.mem_map.2 ⟨_, this, rfl⟩
    obtain ⟨c, hc, hcid⟩ := List.mem_map.1 hmem
    refine ⟨inv, c, _, h1, h2, hc, hcid, ?_, h5, ?_⟩
    · rw [h3]
      rfl
    · by_cases hok : c.is_ok
      · simp only [hok, if_true, manager_of, pools_of]
        exact List.mem_map.2 ⟨c, List.mem_filter.2 ⟨hc, hok⟩, rfl⟩
      · simp only [hok, Bool.false_eq_true, if_false, failures]
        rw [h3]
        exact List.mem_filter.2 ⟨hc, by simp [hok]⟩

theorem callback_exactly_once_witness :
    1 ≤ demo_addresses.length ∧ demo_addresses.length < SIZE_MOD ∧
    exec demo_decline demo_setup demo_addresses demo_events = some demo_world ∧
    demo_world.counted.length = demo_addresses.length ∧
    ∃ inv c m, demo_world.calls = [inv] ∧
      demo_world.counted.getLast? = some (inv.handler, 1) ∧
      c ∈ demo_world.merged ∧ c.id = inv.handler ∧ inv.self.manager_ = some 0 ∧
      inv.heap = [m] ∧
      (if c.is_ok then c.release_pool ∈ m.added else c ∈ failures inv.self) :=
  ⟨by decide, by decide, by rfl, by decide,
    (callback_exactly_once demo_decline demo_setup demo_addresses demo_events demo_world
      (by decide) (by decide) (by rfl)).2.2.2.1 (by decide)⟩

/-- C2: in every state in which the callback has been invoked, the manager handed to the
callback has received one `add_pool` for each handled connector that is ok and no other,
`failures()` of the initializer handed to the callback lists the handled connectors that
are not ok, and the handled connectors are the N started ones, each once; so the
connectors with a pool together with the failed ones are all N, each once.  For every
assignment `oc` of outcomes to the connectors the pools are those of the connectors
with `oc i` true and the failures the connectors with `oc i` false; for three addresses
A, B, C resolving ok, failed, ok the pools are those of A and C and `failures()` is the
connector of B alone; and when all of N ≥ 1 connectors have failed and been handled the
callback has been invoked, with no pool added and N failures. -/
theorem partial_failure_accounting (cb : Callback) (su : Setup) (addresses : List Address)
    (events : List Event) (w : World) (hN : addresses.length < SIZE_MOD)
    (hr : exec cb su addresses events = some w) :
    (∀ inv ∈ w.calls, ∃ m,
      inv.self.manager_ = some 0 ∧ inv.heap = [m] ∧
      m.added = (w.merged.filter (fun c => c.is_ok)).map (fun c => c.release_pool) ∧
      failures inv.self = w.merged.filter (fun c => !c.is_ok) ∧
      (w.merged.map (fun c => c.id)).Perm (List.range addresses.length) ∧
      (m.added.map (fun p => p.connector) ++ (failures inv.self).map (fun c => c.id)).Perm
        (List.range addresses.length) ∧
      (∀ oc : Nat → Bool, (∀ c ∈ w.merged, c.is_ok = oc c.id) →
        m.added.Perm (((List.range addresses.length).filter oc).map
          (fun i => { connector := i, address := addresses.getD i 0 })) ∧
        (failures inv.self).Perm (((List.range addresses.length).filter (fun i => !oc i)).map
          (fun i => resolve (connector_of su.self addresses i) false))) ∧
      (∀ A B C : Address, addresses = [A, B, C] →
        (∀ c ∈ w.merged, c.is_ok = decide (c.id ≠ 1)) →
        m.added.Perm [{ connector := 0, address := A }, { connector := 2, address := C }] ∧
        failures inv.self =
          [{ id := 1, manager := some 0, address := B, data := su.addr, outcome := Outcome.failed }])) ∧
    (1 ≤ addresses.length → w.counted.length = addresses.length →
      (∀ c ∈ w.merged, c.is_ok = false) →
      ∃ inv m, w.calls = [inv] ∧ inv.heap = [m] ∧ m.added = [] ∧
        (failures inv.self).length = addresses.length) := by
  have h := inv_exec hN hr
  have hgen : ∀ inv ∈ w.calls, inv.self.manager_ = some 0 ∧
      inv.heap = [manager_of su.self (pools_of w.merged) 0] ∧
      failures inv.self = failed_of w.merged := by
    intro inv hinv
    obtain ⟨inv1, h1, h2, h3, h4, h5, h6, h7, h8, h9⟩ := h.after (h.finished_of_call hinv)
    rw [h1, List.mem_singleton] at hinv
    subst hinv
    refine ⟨?_, h5, ?_⟩
    · rw [h3]; rfl
    · unfold failures
      rw [h3]; rfl
  have hoc : ∀ oc : Nat → Bool, finished addresses w →
      (∀ c ∈ w.merged, c.is_ok = oc c.id) →
      (pools_of w.merged).Perm (((List.range addresses.length).filter oc).map
          (fun i => { connector := i, address := addresses.getD i 0 })) ∧
      (failed_of w.merged).Perm (((List.range addresses.length).filter (fun i => !oc i)).map
          (fun i => resolve (connector_of su.self addresses i) false)) := by
    intro oc hf hc
    have hm := h.merged_eq_map oc hc
    have hp := h.merged_perm hf
    constructor
    · rw [hm, pools_of_map]
      exact (hp.filter oc).map _
    · rw [hm, failed_of_map]
      exact (hp.filter _).map _
  refine ⟨?_, ?_⟩
  · intro inv hinv
    obtain ⟨g1, g2, g3⟩ := hgen inv hinv
    have hf := h.finished_of_call hinv
    have hp := h.merged_perm hf
    refine ⟨_, g1, g2, rfl, g3, hp, ?_, ?_, ?_⟩
    · rw [g3]
      simp only [manager_of, pools_of, failed_of, List.map_map]
      have : (fun p : Pool => p.connector) ∘ (fun c : ConnectionPoolConnector => c.release_pool) =
          fun c => c.id := rfl
      rw [this, ← List.map_append]
      exact ((List.filter_append_perm _ w.merged).map _).trans hp
    · intro oc hc
      rw [g3]
      exact hoc oc hf hc
    · intro A B C hA hc
      obtain ⟨p1, p2⟩ := hoc (fun i => decide (i ≠ 1)) hf hc
      rw [g3]
      subst hA
      have hsu : su.self.addr = su.addr := by
        have : ∀ (s : ConnectionPoolManagerInitializer) (bs : List BuilderCall),
            (configure s bs).addr = s.addr := by
          intro s bs
          induction bs generalizing s with
          | nil => rfl
          | cons b bs ih =>
            show (configure (apply_builder s b) bs).addr = s.addr
            rw [ih]
            cases b <;> rfl
        unfold Setup.self
        rw [this]
        rfl
      constructor
      · simpa [List.range_succ, List.filter, manager_of] using p1
      · have := List.perm_singleton.1 (by
          simpa [List.range_succ, List.filter] using p2)
        rw [this]
        simp [resolve, connector_of, hsu]
  · intro hpos hcnt hall
    obtain ⟨inv, h1, h2, h3, h4, h5, h6, h7, h8, h9⟩ := h.after ⟨hpos, hcnt⟩
    obtain ⟨p1, p2⟩ := hoc (fun _ => false) ⟨hpos, hcnt⟩ hall
    refine ⟨inv, _, h1, h5, ?_, ?_⟩
    · have : (pools_of w.merged).Perm [] := by simpa using p1
      simpa [manager_of] using this.eq_nil
    · unfold failures
      rw [h3]
      have := p2.length_eq
      simpa [self_of] using this

theorem partial_failure_accounting_witness :
    demo_addresses.length < SIZE_MOD ∧
    exec demo_decline demo_setup demo_addresses demo_events = some demo_world ∧
    ∃ inv m, demo_world.calls = [inv] ∧ inv.heap = [m] ∧
      m.added.Perm [{ connector := 0, address := 10 }, { connector := 2, address := 30 }] ∧
      failures inv.self =
        [{ id := 1, manager := some 0, address := 20, data := 7, outcome := Outcome.failed }] := by
  have t := partial_failure_accounting demo_decline demo_setup demo_addresses demo_events
    demo_world (by decide) (by rfl)
  obtain ⟨inv, hinv⟩ : ∃ inv, demo_world.calls = [inv] := ⟨_, rfl⟩
  obtain ⟨m, _, hm, _, _, _, _, _, habc⟩ := t.1 inv (by rw [hinv]; exact List.mem_singleton.2 rfl)
  obtain ⟨p1, p2⟩ := habc 10 20 30 rfl (by decide)
  exact ⟨by decide, by rfl, inv, m, hinv, hm, p1, p2⟩

/-- C3 (the code does otherwise): after `initialize([])` the counter is zero, no connector
exists, so no handler can ever run (the only events left are the caller dropping a
reference and calls of `failures()`), and in every state the run reaches the callback
has been invoked zero times; `initialize([])` itself returns without invoking it. -/
theorem empty_address_list_never_calls_back (cb : Callback) (su : Setup)
    (events : List Event) (w : World) (hr : exec cb su [] events = some w) :
    w.calls = [] ∧ w.self.remaining_ = 0 ∧ w.connectors = [] ∧ w.counted = [] ∧
    (∀ e, enabled w e = true → e = Event.drop ∨ e = Event.read) ∧
    (initialize_addresses (World.fresh su.self su.refs) []).calls = [] := by
  have hN : ([] : List Address).length < SIZE_MOD := by decide
  have h := inv_exec hN hr
  have hnf : ¬ finished [] w := fun hf => absurd hf.1 (by decide)
  obtain ⟨b1, b2, b3, b4, b5⟩ := h.before hnf
  have hconn : w.connectors = [] := by
    have := h.conn_le
    exact List.length_eq_zero.1 (by simpa using this)
  have hmerged : w.merged = [] := by
    have := h.merged_le
    rw [hconn] at this
    exact List.length_eq_zero.1 (by simpa using this)
  have hcounted : w.counted = [] := by
    have := h.counted_le
    rw [hmerged] at this
    exact List.length_eq_zero.1 (by simpa using this)
  refine ⟨b1, ?_, hconn, hcounted, ?_, rfl⟩
  · rw [h.self_eq]
    simp [self_of]
  · intro e he
    cases e with
    | start =>
      have := h.todo_eq
      simp [enabled, this] at he
    | merge i ok =>
      simp [enabled, hconn] at he
    | count i =>
      simp [enabled, World.merged_ids, hmerged] at he
    | drop => exact Or.inl rfl
    | read => exact Or.inr rfl

theorem empty_address_list_never_calls_back_witness :
    exec demo_decline demo_setup [] [Event.read] = some demo_empty_world ∧
    demo_empty_world.calls = [] ∧ demo_empty_world.self.remaining_ = 0 :=
  ⟨by rfl,
    (empty_address_list_never_calls_back demo_decline demo_setup [Event.read]
      demo_empty_world (by rfl)).1,
    by decide⟩

/-- C4: in every state of a run there is the one manager that `initialize` built.  As
long as the callback has not been invoked the initializer holds it and `close` has not
been called on it.  The callback finds it not closed.  In every state after the
callback: if the callback left the manager with the initializer (`manager_` is not
null), `close` has been called on it exactly once and it is closed; if the callback took
it over (`manager_` is null), `close` has not been called on it. -/
theorem unclaimed_manager_closed (cb : Callback) (su : Setup) (addresses : List Address)
    (events : List Event) (w : World) (hN : addresses.length < SIZE_MOD)
    (hr : exec cb su addresses events = some w) :
    ∃ m, w.heap = [m] ∧
      (w.calls = [] → w.self.manager_ = some 0 ∧ m.close_calls = 0) ∧
      (∀ inv ∈ w.calls,
        w.calls = [inv] ∧
        (∀ m0 ∈ inv.heap, m0.close_calls = 0) ∧
        (cb inv.self inv.heap = false →
          w.self.manager_ = some 0 ∧ m.close_calls = 1 ∧ m.closed = true) ∧
        (cb inv.self inv.heap = true →
          w.self.manager_ = none ∧ m.close_calls = 0 ∧ m.closed = false) ∧
        (w.self.manager_ ≠ none ↔ m.closed = true)) := by
  have h := inv_exec hN hr
  by_cases hf : finished addresses w
  · obtain ⟨inv, h1, h2, h3, h4, h5, h6, h7, h8, h9⟩ := h.after hf
    refine ⟨_, h7, ?_, ?_⟩
    · intro hc
      rw [hc] at h1
      simp at h1
    · intro inv1 hinv1
      rw [h1, List.mem_singleton] at hinv1
      subst hinv1
      refine ⟨h1, ?_, ?_, ?_, ?_⟩
      · intro m0 hm0
        rw [h5, List.mem_singleton] at hm0
        subst hm0
        rfl
      · intro hcb
        rw [h6]
        simp [hcb, manager_of, ConnectionPoolManager.closed]
      · intro hcb
        rw [h6]
        simp [hcb, manager_of, ConnectionPoolManager.closed]
      · rw [h6]
        by_cases hcb : cb inv1.self inv1.heap <;>
          simp [hcb, manager_of, ConnectionPoolManager.closed]
  · obtain ⟨b1, b2, b3, b4, b5⟩ := h.before hf
    refine ⟨_, b3, fun _ => ⟨b2, rfl⟩, ?_⟩
    intro inv hinv
    rw [b1] at hinv
    simp at hinv

theorem unclaimed_manager_closed_witness :
    demo_addresses.length < SIZE_MOD ∧
    exec demo_decline demo_setup demo_addresses demo_events = some demo_world ∧
    exec demo_claim demo_setup demo_addresses demo_events = some demo_claimed_world ∧
    (∃ m, demo_world.heap = [m] ∧ demo_world.self.manager_ = some 0 ∧
      m.close_calls = 1 ∧ m.closed = true) ∧
    (∃ m, demo_claimed_world.heap = [m] ∧ demo_claimed_world.self.manager_ = none ∧
      m.close_calls = 0 ∧ m.closed = false) := by
  obtain ⟨m, hm, _, hc⟩ := unclaimed_manager_closed demo_decline demo_setup demo_addresses
    demo_events demo_world (by decide) (by rfl)
  obtain ⟨inv, hinv⟩ : ∃ inv, demo_world.calls = [inv] := ⟨_, rfl⟩
  obtain ⟨_, _, hd, _, _⟩ := hc inv (by rw [hinv]; exact List.mem_singleton.2 rfl)
  obtain ⟨m1, hm1, _, hc1⟩ := unclaimed_manager_closed demo_claim demo_setup demo_addresses
    demo_events demo_claimed_world (by decide) (by rfl)
  obtain ⟨inv1, hinv1⟩ : ∃ inv, demo_claimed_world.calls = [inv] := ⟨_, rfl⟩
  obtain ⟨_, _, _, ht, _⟩ := hc1 inv1 (by rw [hinv1]; exact List.mem_singleton.2 rfl)
  exact ⟨by decide, by rfl, by rfl, ⟨m, hm, hd rfl⟩, ⟨m1, hm1, ht rfl⟩⟩

/-- C5: in every state of a run `failures()` is the list of the connectors handled so
far that are not ok, in the order in which their handlers ran the locked block.  An
event leaves `failures()` as it is, except the locked block of the handler of a failed
connector, which appends that connector at the end.  Hence `failures()` of a state is a
prefix of `failures()` of every state reached from it.  A call of `failures()` leaves
the state as it is. -/
theorem failure_list_append_only (cb : Callback) (su : Setup) (addresses : List Address)
    (events : List Event) (w : World) (hN : addresses.length < SIZE_MOD)
    (hr : exec cb su addresses events = some w) :
    failures w.self = w.merged.filter (fun c => !c.is_ok) ∧
    (∀ e w1, step cb w e = some w1 →
      w1.merged = w.merged ++ handled_by su.self addresses e ∧
      failures w1.self = failures w.self ++
        (handled_by su.self addresses e).filter (fun c => !c.is_ok)) ∧
    (∀ i ok, handled_by su.self addresses (Event.merge i ok) =
      [{ id := i, manager := some 0, address := addresses.getD i 0, data := su.self.addr,
         outcome := if ok then Outcome.ok else Outcome.failed }]) ∧
    handled_by su.self addresses Event.start = [] ∧
    (∀ i, handled_by su.self addresses (Event.count i) = []) ∧
    handled_by su.self addresses Event.drop = [] ∧
    handled_by su.self addresses Event.read = [] ∧
    (∀ es w1, run cb w es = some w1 → failures w.self <+: failures w1.self) ∧
    (∀ w1, step cb w Event.read = some w1 → w1 = w) := by
  have h := inv_exec hN hr
  refine ⟨h.failures_eq, ?_, fun i ok => rfl, rfl, fun i => rfl, rfl, rfl,
    fun es w1 hrun => run_failures_prefix hN es h hrun, ?_⟩
  · intro e w1 hs
    have hm := step_merged h hN hs
    have h1 := inv_step h hN hs
    refine ⟨hm, ?_⟩
    rw [h1.failures_eq, h.failures_eq, hm]
    unfold failed_of
    rw [List.filter_append]
  · intro w1 hs
    rw [step_read] at hs
    split at hs
    · simp only [Option.some.injEq] at hs
      exact hs.symm
    · simp at hs

theorem failure_list_append_only_witness :
    ([10, 20] : List Address).length < SIZE_MOD ∧
    exec demo_decline demo_setup [10, 20] demo_failed_events = some demo_failed_world ∧
    failures demo_failed_world.self = demo_failed_world.merged.filter (fun c => !c.is_ok) ∧
    failures demo_failed_world.self =
      [{ id := 1, manager := some 0, address := 20, data := 7, outcome := Outcome.failed },
       { id := 0, manager := some 0, address := 10, data := 7, outcome := Outcome.failed }] :=
  ⟨by decide, by rfl,
    (failure_list_append_only demo_decline demo_setup [10, 20] demo_failed_events
      demo_failed_world (by decide) (by rfl)).1,
    by decide⟩

/-- C6: the manager that `initialize` builds has, for keyspace, listener, metrics and
settings, the argument of the last call of the builder before `initialize`, or what the
constructor set (empty keyspace, null listener, null metrics, default settings) when
the builder was never called, whatever the sequence of builder calls; and each builder
returns the address of the object it was called on, writes its own field and leaves
every other field of the object as it was. -/
theorem builders_last_write_wins (su : Setup) (addresses : List Address) :
    (∃ m, (initialize_addresses (World.fresh su.self su.refs) addresses).heap = [m] ∧
      (initialize_addresses (World.fresh su.self su.refs) addresses).self.manager_ = some 0 ∧
      m.keyspace = last_write pick_keyspace su.builders "" ∧
      m.listener = last_write pick_listener su.builders none ∧
      m.metrics = last_write pick_metrics su.builders none ∧
      m.settings = last_write pick_settings su.builders su.default_settings ∧
      m.event_loop = su.event_loop ∧ m.protocol_version = su.protocol_version) ∧
    (∀ (self : ConnectionPoolManagerInitializer) (k : String),
      (with_keyspace self k).1 = self.addr ∧
      (with_keyspace self k).2 = { self with keyspace_ := k } ∧
      (with_keyspace self k).2.keyspace_ = k ∧
      (with_keyspace self k).2.listener_ = self.listener_ ∧
      (with_keyspace self k).2.metrics_ = self.metrics_ ∧
      (with_keyspace self k).2.settings_ = self.settings_ ∧
      (with_keyspace self k).2.remaining_ = self.remaining_ ∧
      (with_keyspace self k).2.failures_ = self.failures_ ∧
      (with_keyspace self k).2.manager_ = self.manager_ ∧
      (with_keyspace self k).2.addr = self.addr) ∧
    (∀ (self : ConnectionPoolManagerInitializer) (l : Option Nat),
      (with_listener self l).1 = self.addr ∧
      (with_listener self l).2 = { self with listener_ := l } ∧
      (with_listener self l).2.keyspace_ = self.keyspace_ ∧
      (with_listener self l).2.listener_ = l ∧
      (with_listener self l).2.metrics_ = self.metrics_ ∧
      (with_listener self l).2.settings_ = self.settings_ ∧
      (with_listener self l).2.remaining_ = self.remaining_ ∧
      (with_listener self l).2.failures_ = self.failures_ ∧
      (with_listener self l).2.manager_ = self.manager_ ∧
      (with_listener self l).2.addr = self.addr) ∧
    (∀ (self : ConnectionPoolManagerInitializer) (m : Option Nat),
      (with_metrics self m).1 = self.addr ∧
      (with_metrics self m).2 = { self with metrics_ := m } ∧
      (with_metrics self m).2.keyspace_ = self.keyspace_ ∧
      (with_metrics self m).2.listener_ = self.listener_ ∧
      (with_metrics self m).2.metrics_ = m ∧
      (with_metrics self m).2.settings_ = self.settings_ ∧
      (with_metrics self m).2.remaining_ = self.remaining_ ∧
      (with_metrics self m).2.failures_ = self.failures_ ∧
      (with_metrics self m).2.manager_ = self.manager_ ∧
      (with_metrics self m).2.addr = self.addr) ∧
    (∀ (self : ConnectionPoolManagerInitializer) (s : ConnectionPoolManagerSettings),
      (with_settings self s).1 = self.addr ∧
      (with_settings self s).2 = { self with settings_ := s } ∧
      (with_settings self s).2.keyspace_ = self.keyspace_ ∧
      (with_settings self s).2.listener_ = self.listener_ ∧
      (with_settings self s).2.metrics_ = self.metrics_ ∧
      (with_settings self s).2.settings_ = s ∧
      (with_settings self s).2.remaining_ = self.remaining_ ∧
      (with_settings self s).2.failures_ = self.failures_ ∧
      (with_settings self s).2.manager_ = self.manager_ ∧
      (with_settings self s).2.addr = self.addr) := by
  refine ⟨?_, fun self k => ⟨rfl, rfl, rfl, rfl, rfl, rfl, rfl, rfl, rfl, rfl⟩,
    fun self l => ⟨rfl, rfl, rfl, rfl, rfl, rfl, rfl, rfl, rfl, rfl⟩,
    fun self m => ⟨rfl, rfl, rfl, rfl, rfl, rfl, rfl, rfl, rfl, rfl⟩,
    fun self s => ⟨rfl, rfl, rfl, rfl, rfl, rfl, rfl, rfl, rfl, rfl⟩⟩
  obtain ⟨f1, f2, _⟩ := initialize_loop_frame addresses
    (initialize_begin (World.fresh su.self su.refs) addresses)
  have hcfg := configure_eq
    (construct su.addr su.event_loop su.protocol_version su.data su.default_settings)
    su.builders
  unfold initialize_addresses
  rw [f1, f2]
  refine ⟨_, rfl, rfl, ?_, ?_, ?_, ?_, ?_, ?_⟩
  all_goals
    simp only [initialize_begin, inc_ref, World.fresh, Setup.self]
    rw [hcfg]
    rfl

/-- C7: take a state of a run in which the counter is at 2 and the connectors `a` and
`b`, distinct, are still to be handled, and let the two handlers run, each as its
locked block followed by its `fetch_sub`, interleaved in any of the six ways.  No
callback has been invoked before; every interleaving runs to the end; one handler reads
2 at `fetch_sub` and the other reads 1; the callback is invoked exactly once, by the
handler that read 1; and the initializer handed to the callback holds both results: for
each of the two connectors the pool in the manager if it is ok, the connector in the
failure list if not. -/
theorem no_double_counting (cb : Callback) (su : Setup) (addresses : List Address)
    (events : List Event) (w : World) (a b : Nat) (oka okb : Bool) (sched : List Event)
    (hN : addresses.length < SIZE_MOD) (hr : exec cb su addresses events = some w)
    (hrem : w.self.remaining_ = 2) (hab : a ≠ b)
    (ha : enabled w (Event.merge a oka) = true) (hb : enabled w (Event.merge b okb) = true)
    (hs : sched ∈ interleavings [Event.merge a oka, Event.count a]
      [Event.merge b okb, Event.count b]) :
    w.calls = [] ∧
    ∃ w1 inv m x y, run cb w sched = some w1 ∧
      w1.counted = w.counted ++ [(x, 2), (y, 1)] ∧ ((x = a ∧ y = b) ∨ (x = b ∧ y = a)) ∧
      w1.calls = [inv] ∧ inv.handler = y ∧ inv.heap = [m] ∧
      (∀ c, c = resolve (connector_of su.self addresses a) oka ∨
          c = resolve (connector_of su.self addresses b) okb →
        if c.is_ok then c.release_pool ∈ m.added else c ∈ failures inv.self) := by
  have h := inv_exec hN hr
  obtain ⟨hia, hma⟩ := (enabled_merge_iff w a oka).1 ha
  obtain ⟨hib, hmb⟩ := (enabled_merge_iff w b okb).1 hb
  have hremeq := h.remaining_eq
  have hnf : ¬ finished addresses w := fun hf => by
    have := hf.2
    omega
  have key : ∃ w1 x y, run cb w sched = some w1 ∧ Inv cb su.self addresses w1 ∧
      w1.counted = w.counted ++ [(x, 2), (y, 1)] ∧ ((x = a ∧ y = b) ∨ (x = b ∧ y = a)) ∧
      resolve (connector_of su.self addresses a) oka ∈ w1.merged ∧
      resolve (connector_of su.self addresses b) okb ∈ w1.merged := by
    rw [interleavings_two] at hs
    simp only [List.mem_cons, List.mem_singleton, List.not_mem_nil, or_false] at hs
    rcases hs with h1 | h1 | h1 | h1 | h1 | h1
    · exact race_first h hN oka okb hab hia hib hma hmb hrem (Or.inl h1)
    · exact race_first h hN oka okb hab hia hib hma hmb hrem (Or.inr (Or.inl h1))
    · exact race_first h hN oka okb hab hia hib hma hmb hrem (Or.inr (Or.inr h1))
    · obtain ⟨w1, x, y, r1, r2, r3, r4, r5, r6⟩ :=
        race_first h hN okb oka (Ne.symm hab) hib hia hmb hma hrem (Or.inr (Or.inr h1))
      exact ⟨w1, x, y, r1, r2, r3, r4.symm, r6, r5⟩
    · obtain ⟨w1, x, y, r1, r2, r3, r4, r5, r6⟩ :=
        race_first h hN okb oka (Ne.symm hab) hib hia hmb hma hrem (Or.inr (Or.inl h1))
      exact ⟨w1, x, y, r1, r2, r3, r4.symm, r6, r5⟩
    · obtain ⟨w1, x, y, r1, r2, r3, r4, r5, r6⟩ :=
        race_first h hN okb oka (Ne.symm hab) hib hia hmb hma hrem (Or.inl h1)
      exact ⟨w1, x, y, r1, r2, r3, r4.symm, r6, r5⟩
  obtain ⟨w1, x, y, r1, r2, r3, r4, r5, r6⟩ := key
  have hf : finished addresses w1 := by
    refine ⟨by omega, ?_⟩
    rw [r3]
    simp only [List.length_append, List.length_cons, List.length_nil]
    omega
  obtain ⟨inv, h1, h2, h3, h4, h5, h6, h7, h8, h9⟩ := r2.after hf
  refine ⟨(h.before hnf).1, w1, inv, _, x, y, r1, r3, r4, h1, ?_, h5, ?_⟩
  · rw [r3] at h2
    have : (w.counted ++ [(x, 2), (y, 1)]).getLast? = some (y, 1) := by
      rw [List.getLast?_append]
      simp
    rw [this] at h2
    simp only [Option.some.injEq, Prod.mk.injEq, and_true] at h2
    exact h2.symm
  · intro c hc
    have hmem : c ∈ w1.merged := by
      rcases hc with rfl | rfl
      · exact r5
      · exact r6
    by_cases hok : c.is_ok
    · simp only [hok, if_true, manager_of, pools_of]
      exact List.mem_map.2 ⟨c, List.mem_filter.2 ⟨hmem, hok⟩, rfl⟩
    · simp only [hok, Bool.false_eq_true, if_false, failures]
      rw [h3]
      exact List.mem_filter.2 ⟨hmem, by simp [hok]⟩

theorem no_double_counting_witness :
    demo_race_world.self.remaining_ = 2 ∧
    enabled demo_race_world (Event.merge 0 true) = true ∧
    enabled demo_race_world (Event.merge 1 false) = true ∧
    ∃ w1 inv m x y,
      run demo_decline demo_race_world
        [Event.merge 0 true, Event.merge 1 false, Event.count 1, Event.count 0] = some w1 ∧
      w1.counted = demo_race_world.counted ++ [(x, 2), (y, 1)] ∧
      ((x = 0 ∧ y = 1) ∨ (x = 1 ∧ y = 0)) ∧
      w1.calls = [inv] ∧ inv.handler = y ∧ inv.heap = [m] ∧
      (∀ c, c = resolve (connector_of demo_setup.self [10, 20] 0) true ∨
          c = resolve (connector_of demo_setup.self [10, 20] 1) false →
        if c.is_ok then c.release_pool ∈ m.added else c ∈ failures inv.self) :=
  ⟨by decide, by decide, by decide,
    (no_double_counting demo_decline demo_setup [10, 20] [Event.start, Event.start]
      demo_race_world 0 1 true false
      [Event.merge 0 true, Event.merge 1 false, Event.count 1, Event.count 0]
      (by decide) (by rfl) (by decide) (by decide) (by decide) (by decide)
      (by rw [interleavings_two]; decide)).2⟩

/-- C8: the first lines of `initialize` store the number of addresses in the counter
while no connector exists yet, and build one manager; `initialize` starts one connector
for each address, in input order, each bound to that manager and to the initializer.  In
every state of a run the counter plus the number of handlers that have passed
`fetch_sub` is the number of addresses (so the counter never goes below zero); the
`fetch_sub` of a handler finds the counter at one or more and lowers it by exactly one;
that handler invokes the callback when, and only when, it found the counter at one; and
no other event touches the counter or invokes the callback. -/
theorem remaining_counter_tracks_completions (cb : Callback) (su : Setup)
    (addresses : List Address) (events : List Event) (w : World)
    (hN : addresses.length < SIZE_MOD) (hr : exec cb su addresses events = some w) :
    ((boot su.self su.refs addresses).self.remaining_ = addresses.length ∧
      (boot su.self su.refs addresses).connectors = [] ∧
      (boot su.self su.refs addresses).heap.length = 1) ∧
    (exec cb su addresses (List.replicate addresses.length Event.start) =
        some (initialize_addresses (World.fresh su.self su.refs) addresses) ∧
      (initialize_addresses (World.fresh su.self su.refs) addresses).connectors =
        (List.range addresses.length).map (fun i =>
          { id := i, manager := some 0, address := addresses.getD i 0, data := su.addr,
            outcome := Outcome.pending }) ∧
      (initialize_addresses (World.fresh su.self su.refs) addresses).self.remaining_ =
        addresses.length) ∧
    (w.heap.length = 1 ∧
      w.connectors.map (fun c => c.address) ++ w.todo = addresses ∧
      ∀ (i : Nat) (c : ConnectionPoolConnector), w.connectors[i]? = some c →
        c.id = i ∧ c.manager = some 0 ∧ c.address = addresses.getD i 0 ∧ c.data = su.addr ∧
        c.outcome = Outcome.pending) ∧
    w.self.remaining_ + w.counted.length = addresses.length ∧
    (∀ i w1, step cb w (Event.count i) = some w1 →
      1 ≤ w.self.remaining_ ∧ w1.self.remaining_ + 1 = w.self.remaining_ ∧
      (w.self.remaining_ = 1 → ∃ inv, w1.calls = w.calls ++ [inv] ∧ inv.handler = i) ∧
      (w.self.remaining_ ≠ 1 → w1.calls = w.calls) ∧
      (w1.calls.length = w.calls.length + 1 ↔
        (w.self.remaining_ = 1 ∧ w1.self.remaining_ = 0))) ∧
    (∀ e w1, step cb w e = some w1 → (∀ i, e ≠ Event.count i) →
      w1.calls = w.calls ∧ w1.self.remaining_ = w.self.remaining_) := by
  have h := inv_exec hN hr
  have hmod : addresses.length % SIZE_MOD = addresses.length := Nat.mod_eq_of_lt hN
  have hsu := setup_addr su
  refine ⟨⟨?_, rfl, rfl⟩, ⟨?_, ?_, ?_⟩, ⟨?_, ?_, ?_⟩, ?_, ?_, ?_⟩
  · simp [boot, initialize_begin, inc_ref, hmod]
  · exact run_starts cb addresses _ rfl rfl
  · unfold initialize_addresses
    rw [initialize_loop_connectors]
    simp [initialize_begin, inc_ref, World.fresh, hsu]
  · unfold initialize_addresses
    rw [(initialize_loop_frame addresses _).1]
    simp [initialize_begin, inc_ref, hmod]
  · by_cases hf : finished addresses w
    · obtain ⟨inv, h1, h2, h3, h4, h5, h6, h7, h8, h9⟩ := h.after hf
      rw [h7]; rfl
    · rw [(h.before hf).2.2.1]; rfl
  · have hc : w.connectors.map (fun c => c.address) = addresses.take w.connectors.length := by
      apply List.ext_getElem?
      intro i
      by_cases hi : i < w.connectors.length
      · have hle := h.conn_le
        rw [List.getElem?_map, List.getElem?_take_of_lt hi, List.getElem?_eq_getElem hi,
          List.getElem?_eq_getElem (by omega)]
        have := h.conn_at i _ (List.getElem?_eq_getElem hi)
        rw [this]
        simp only [connector_of, Option.map_some', Option.some.injEq]
        rw [List.getD_eq_getElem?_getD, List.getElem?_eq_getElem (by omega)]
        rfl
      · have hle := h.conn_le
        rw [List.getElem?_eq_none (by simpa using hi),
          List.getElem?_eq_none (by simp; omega)]
    rw [hc, h.todo_eq, List.take_append_drop]
  · intro i c hc
    rw [h.conn_at i c hc, ← hsu]
    exact ⟨rfl, rfl, rfl, rfl, rfl⟩
  · have := h.remaining_eq
    have := h.counted_le_length
    omega
  · intro i w1 hs
    obtain ⟨e1, e2, e3, e4, e5⟩ := step_count_effect h hN hs
    refine ⟨e1, e2, fun h1 => ⟨_, (e4 h1).1, rfl⟩, fun h1 => (e5 h1).1, ?_⟩
    constructor
    · intro hlen
      by_cases h1 : w.self.remaining_ = 1
      · exact ⟨h1, by omega⟩
      · rw [(e5 h1).1] at hlen
        omega
    · rintro ⟨h1, _⟩
      rw [(e4 h1).1]
      simp
  · intro e w1 hs hne
    obtain ⟨f1, _, f3, _⟩ := step_other h hs hne
    exact ⟨f1, f3⟩

theorem remaining_counter_tracks_completions_witness :
    demo_addresses.length < SIZE_MOD ∧
    exec demo_decline demo_setup demo_addresses demo_events = some demo_world ∧
    demo_world.self.remaining_ + demo_world.counted.length = demo_addresses.length :=
  ⟨by decide, by rfl,
    (remaining_counter_tracks_completions demo_decline demo_setup demo_addresses demo_events
      demo_world (by decide) (by rfl)).2.2.2.1⟩

/-- C9: the first lines of `initialize` take a reference on top of those of the caller.
In every state of a run in which a started connector has not been through the whole
of `handle_connect`, and more generally as long as the callback has not been invoked,
the initializer has not been deallocated and its reference count is the number of
references the caller still holds plus one, so at least 1 even when the caller holds
none.  The handler that finds the counter at one runs callback, close check and
`dec_ref` in that order; after the callback and after the close check the count is
still the caller's plus one and the initializer is not deallocated; only the `dec_ref`
at its end brings the count down to the caller's.  Once the callback has been invoked
the count is the caller's. -/
theorem lifetime_guard_held (cb : Callback) (su : Setup) (addresses : List Address)
    (events : List Event) (w : World) (hN : addresses.length < SIZE_MOD)
    (hr : exec cb su addresses events = some w) :
    ((World.fresh su.self su.refs).self.ref_count = su.refs ∧
      (boot su.self su.refs addresses).self.ref_count = su.refs + 1) ∧
    ((∃ i, i < w.connectors.length ∧ i ∉ w.counted_ids) →
      w.destroyed = false ∧ w.self.ref_count = w.caller_refs + 1 ∧ 1 ≤ w.self.ref_count) ∧
    (w.calls = [] →
      w.destroyed = false ∧ w.self.ref_count = w.caller_refs + 1 ∧ 1 ≤ w.self.ref_count) ∧
    (w.calls ≠ [] → w.self.ref_count = w.caller_refs) ∧
    (∀ i w1, step cb w (Event.count i) = some w1 → w.self.remaining_ = 1 →
      ∃ c w0, c ∈ w.merged ∧ c.id = i ∧
        w0 = { w with self := { w.self with remaining_ := 0 }
                      counted := w.counted ++ [(i, 1)] } ∧
        w1 = dec_ref (close_unreleased (invoke_callback cb w0 c)) ∧
        (invoke_callback cb w0 c).self.ref_count = w.caller_refs + 1 ∧
        (invoke_callback cb w0 c).destroyed = false ∧
        (close_unreleased (invoke_callback cb w0 c)).self.ref_count = w.caller_refs + 1 ∧
        (close_unreleased (invoke_callback cb w0 c)).destroyed = false ∧
        w1.self.ref_count = w.caller_refs) ∧
    (∀ e w1, step cb w e = some w1 →
      w1.self.ref_count - w1.caller_refs =
        w.self.ref_count - w.caller_refs -
          (if e.is_count = true ∧ w.self.remaining_ = 1 then 1 else 0)) := by
  have h := inv_exec hN hr
  have hcalls : w.calls = [] → w.destroyed = false ∧ w.self.ref_count = w.caller_refs + 1 ∧
      1 ≤ w.self.ref_count := by
    intro hc
    have hnf : ¬ finished addresses w := by
      intro hf
      obtain ⟨inv, h1, _⟩ := h.after hf
      rw [hc] at h1
      simp at h1
    obtain ⟨b1, b2, b3, b4, b5⟩ := h.before hnf
    exact ⟨b4, b5, by omega⟩
  refine ⟨⟨rfl, ?_⟩, ?_, hcalls, ?_, ?_, ?_⟩
  · simp [boot, initialize_begin, inc_ref, World.fresh]
  · rintro ⟨i, hi, hnc⟩
    apply hcalls
    by_contra hne
    have hf : finished addresses w := by
      by_contra hnf
      exact hne (h.before hnf).1
    have hp := h.merged_perm hf
    have hle := h.conn_le
    have hm : i ∈ w.merged_ids := hp.mem_iff.2 (List.mem_range.2 (by omega))
    have := nodup_subset_length_lt h.counted_nodup h.counted_sub hm hnc
    have := h.merged_le
    have := hf.2
    simp only [World.merged_ids, World.counted_ids, List.length_map] at *
    omega
  · intro hne
    have hf : finished addresses w := by
      by_contra hnf
      exact hne (h.before hnf).1
    obtain ⟨inv, h1, h2, h3, h4, h5, h6, h7, h8, h9⟩ := h.after hf
    exact h9
  · intro i w1 hs hrem
    obtain ⟨c, hc, hci, hw1⟩ := step_count_last hs hrem
    have hnf : ¬ finished addresses w := (step_count_eq h hN hs).2.2.1
    obtain ⟨b1, b2, b3, b4, b5⟩ := h.before hnf
    obtain ⟨i1, i2, i3⟩ := invoke_callback_guard cb
      { w with self := { w.self with remaining_ := 0 }
               counted := w.counted ++ [(i, 1)] } c
    obtain ⟨c1, c2, c3⟩ := close_unreleased_guard (invoke_callback cb
      { w with self := { w.self with remaining_ := 0 }
               counted := w.counted ++ [(i, 1)] } c)
    refine ⟨c, _, hc, hci, rfl, hw1, ?_, ?_, ?_, ?_, ?_⟩
    · rw [i1]; exact b5
    · rw [i2]; exact b4
    · rw [c1, i1]; exact b5
    · rw [c2, i2]; exact b4
    · rw [hw1]
      simp only [dec_ref, c1, i1]
      show w.self.ref_count - 1 = _
      omega
  · intro e w1 hs
    by_cases hcount : ∃ i, e = Event.count i
    · obtain ⟨i, rfl⟩ := hcount
      obtain ⟨e1, e2, e3, e4, e5⟩ := step_count_effect h hN hs
      by_cases h1 : w.self.remaining_ = 1
      · rw [(e4 h1).2]
        simp [h1, Event.is_count]
      · rw [(e5 h1).2]
        simp [h1]
    · have hne : ∀ i, e ≠ Event.count i := fun i hi => hcount ⟨i, hi⟩
      obtain ⟨_, _, _, f4⟩ := step_other h hs hne
      have hic : e.is_count = false := by
        cases e with
        | count i => exact absurd rfl (hne i)
        | start => rfl
        | merge i ok => rfl
        | drop => rfl
        | read => rfl
      rw [f4]
      simp [hic]

theorem lifetime_guard_held_witness :
    ([10, 20] : List Address).length < SIZE_MOD ∧
    exec demo_decline demo_setup [10, 20] demo_failed_events = some demo_failed_world ∧
    demo_failed_world.destroyed = false ∧
    demo_failed_world.self.ref_count = demo_failed_world.caller_refs + 1 ∧
    1 ≤ demo_failed_world.self.ref_count :=
  ⟨by decide, by rfl,
    (lifetime_guard_held demo_decline demo_setup [10, 20] demo_failed_events
      demo_failed_world (by decide) (by rfl)).2.1 ⟨0, by decide, by decide⟩⟩

/-- C10 (the code does otherwise for no address): `initialize([])` takes the
self-reference, and in every state of the run that follows the initializer still holds
it: its reference count is the caller's plus one, that is, the run has raised it by one
and never lowered it, and the initializer is never deallocated, however many references
the caller drops. -/
theorem empty_address_list_keeps_guard (cb : Callback) (su : Setup)
    (events : List Event) (w : World) (hr : exec cb su [] events = some w) :
    (World.fresh su.self su.refs).self.ref_count -
      (World.fresh su.self su.refs).caller_refs = 0 ∧
    w.self.ref_count - w.caller_refs = 1 ∧ w.destroyed = false ∧
    (initialize_addresses (World.fresh su.self su.refs) []).self.ref_count -
      (initialize_addresses (World.fresh su.self su.refs) []).caller_refs = 1 := by
  have hN : ([] : List Address).length < SIZE_MOD := by decide
  have h := inv_exec hN hr
  have hnf : ¬ finished [] w := fun hf => absurd hf.1 (by decide)
  obtain ⟨b1, b2, b3, b4, b5⟩ := h.before hnf
  refine ⟨?_, ?_, b4, ?_⟩
  · simp [World.fresh]
  · omega
  · simp [initialize_addresses, initialize_loop, initialize_begin, inc_ref, World.fresh]

theorem empty_address_list_keeps_guard_witness :
    exec demo_decline demo_setup [] [Event.read] = some demo_empty_world ∧
    demo_empty_world.self.ref_count - demo_empty_world.caller_refs = 1 ∧
    demo_empty_world.destroyed = false :=
  ⟨by rfl,
    (empty_address_list_keeps_guard demo_decline demo_setup [Event.read]
      demo_empty_world (by rfl)).2.1,
    by decide⟩

end cass
